import Mathlib

/-!
Verification development for the `ns_mi::T_MultiIndex` multi-index container
(`MultiIndex.h`).

The container is embedded shallowly:

* The primary map is modelled as an insertion-ordered association list of
  records.  Each record carries the user key, the wrapped payload
  (`T_PayloadWrap::m_value`), the tombstone flag (`T_PayloadWrap::dead`) and a
  stable numeric identity standing for the node address; handles
  (`T_Handle`) are modelled by that identity, which matches the node-stable /
  handle-storing policies (the pointer stays with the logical record across
  relocations as maintained by `OnRelocate`).
* Every secondary map is an insertion-ordered list of (sub-key, stored handle)
  entries; `equal_range` is modelled by filtering on the sub-key, a unique
  map's `insert` fails exactly when the key is already present, and
  `erase(iterator)` removes a single designated entry.
* The compile-time configuration (unique primary?, tombstones?, the list of
  secondary index specs) is a runtime parameter of the model, mirroring the
  `if constexpr` branches of the source.

Operations (`emplace`, `erase`, `UpdateCore`, `Replace`, `find`, `compact`,
`clear`, copy construction/assignment, `AddSecs`/`DropSecs`/`Rollback`) are
translated from the source; a `Step` relation closes them under sequential
composition so that reachable-state invariants can be stated.
-/

set_option maxHeartbeats 1600000
set_option linter.unusedSectionVars false
set_option linter.unusedVariables false
set_option linter.unnecessarySimpa false

namespace MultiIndex

/-- A stored record of the primary map: the node identity (the stable address
of the `(key, wrap)` pair), the user key, the payload (`m_value` of
`T_PayloadWrap`) and the tombstone flag (`dead`, meaningful only when the
policy uses tombstones). -/
structure MRecord (Key Payload : Type) where
  id : Nat
  key : Key
  val : Payload
  dead : Bool
  deriving DecidableEq

/-- A secondary index spec (`T_Index`): the projection from (primary key,
payload) to the sub-key, and whether the secondary map is unique. -/
structure SecSpec (Key Payload SKey : Type) where
  proj : Key → Payload → SKey
  uniq : Bool

/-- The compile-time shape of one instantiation: unique or multi primary,
tombstones on or off, and the declared secondary indices in order. -/
structure MIConfig (Key Payload SKey : Type) where
  primUnique : Bool
  tombs : Bool
  specs : List (SecSpec Key Payload SKey)

/-- Container state: the primary association list, one entry list per
secondary map (the stored value is the handle, i.e. the record identity), the
live counter (`T_LiveCounterBase::m_live`) and the next fresh identity. -/
structure MIState (Key Payload SKey : Type) where
  primary : List (MRecord Key Payload)
  secs : List (List (SKey × Nat))
  live : Nat
  nextId : Nat

variable {α : Type}
variable {Key Payload SKey : Type}
variable [DecidableEq Key] [DecidableEq Payload] [DecidableEq SKey]

/-- Erase the first element satisfying `p`; this models a single
erase-by-iterator after an equal-range scan in the source. -/
def eraseFirst (p : α → Bool) : List α → List α
  | [] => []
  | a :: l => if p a then l else a :: eraseFirst p l

/-- `MatchSecondary` of the handle-storing policies, combined with the
equal-range sub-key test used by `Rollback` and `DropSecs`: an entry matches
when its sub-key is the projected one and the stored handle is the record. -/
def secMatch (sk : SKey) (rid : Nat) (e : SKey × Nat) : Bool :=
  decide (e.1 = sk) && decide (e.2 = rid)

/-- `AddSecs`, walking the secondary specs in declaration order: a unique
secondary whose sub-key is already present rejects the entry and the
already-written secondaries are rolled back (`Rollback<I>`); otherwise the
(sub-key, handle) entry is inserted. -/
def addSecsAux (k : Key) (v : Payload) (rid : Nat) :
    List (SecSpec Key Payload SKey) → List (List (SKey × Nat)) →
    List (List (SKey × Nat)) × Bool
  | [], ms => (ms, true)
  | _ :: _, [] => ([], true)
  | spec :: specs, m :: ms =>
    let sk := spec.proj k v
    if spec.uniq && m.any (fun e => decide (e.1 = sk)) then (m :: ms, false)
    else
      match addSecsAux k v rid specs ms with
      | (tail, true) => ((m ++ [(sk, rid)]) :: tail, true)
      | (tail, false) =>
        (eraseFirst (secMatch sk rid) (m ++ [(sk, rid)]) :: tail, false)

/-- `DropSecs`: for every secondary, compute the projected sub-key from the
record's current key and payload, walk the equal-range and erase the entry
matching the handle. -/
def dropSecsAux (k : Key) (v : Payload) (rid : Nat) :
    List (SecSpec Key Payload SKey) → List (List (SKey × Nat)) →
    List (List (SKey × Nat))
  | [], ms => ms
  | _ :: _, [] => []
  | spec :: specs, m :: ms =>
    eraseFirst (secMatch (spec.proj k v) rid) m :: dropSecsAux k v rid specs ms

/-- State-level `AddSecs` for a handle viewing record `r`. -/
def AddSecs (cfg : MIConfig Key Payload SKey) (s : MIState Key Payload SKey)
    (r : MRecord Key Payload) : MIState Key Payload SKey × Bool :=
  match addSecsAux r.key r.val r.id cfg.specs s.secs with
  | (ms, ok) => ({ s with secs := ms }, ok)

/-- State-level `DropSecs` for a handle viewing record `r`. -/
def DropSecs (cfg : MIConfig Key Payload SKey) (s : MIState Key Payload SKey)
    (r : MRecord Key Payload) : MIState Key Payload SKey :=
  { s with secs := dropSecsAux r.key r.val r.id cfg.specs s.secs }

/-- Dereference a handle: the record currently stored under this identity. -/
def lookupId (s : MIState Key Payload SKey) (rid : Nat) :
    Option (MRecord Key Payload) :=
  s.primary.find? (fun r => decide (r.id = rid))

/-- Overwrite the payload of the record with identity `rid`
(`h.Payload() = ...`). -/
def setPayload (s : MIState Key Payload SKey) (rid : Nat) (v : Payload) :
    MIState Key Payload SKey :=
  { s with primary :=
      s.primary.map (fun r => if r.id = rid then { r with val := v } else r) }

/-- Overwrite the tombstone flag of the record with identity `rid`
(`h.Flag() = ...`). -/
def setDead (s : MIState Key Payload SKey) (rid : Nat) (b : Bool) :
    MIState Key Payload SKey :=
  { s with primary :=
      s.primary.map (fun r => if r.id = rid then { r with dead := b } else r) }

/-- `IncrementLive`: a real increment when tombstones are enabled, the no-op
base class otherwise. -/
def IncrementLive (cfg : MIConfig Key Payload SKey)
    (s : MIState Key Payload SKey) : MIState Key Payload SKey :=
  if cfg.tombs then { s with live := s.live + 1 } else s

/-- `DecrementLive`: a real decrement when tombstones are enabled, the no-op
base class otherwise. -/
def DecrementLive (cfg : MIConfig Key Payload SKey)
    (s : MIState Key Payload SKey) : MIState Key Payload SKey :=
  if cfg.tombs then { s with live := s.live - 1 } else s

/-- The fresh-insert path of `emplace`: insert the wrapped payload into the
primary, attempt the secondaries; on a unique-secondary rejection the rolled
back state drops the just-inserted primary node (`m_storage.erase(it)`) and
`(end, false)` is returned; on success the live counter is bumped. -/
def insertNew (cfg : MIConfig Key Payload SKey) (s : MIState Key Payload SKey)
    (k : Key) (v : Payload) : MIState Key Payload SKey × Bool :=
  let r : MRecord Key Payload := ⟨s.nextId, k, v, false⟩
  let s1 : MIState Key Payload SKey :=
    { s with primary := s.primary ++ [r], nextId := s.nextId + 1 }
  match AddSecs cfg s1 r with
  | (s2, true) => (IncrementLive cfg s2, true)
  | (s2, false) => ({ s2 with primary := s2.primary.dropLast }, false)

/-- `emplace(key, payload)`.  With a unique primary the key is probed first:
under tombstones a dead node with this key is revived in place (flag cleared,
payload moved over the old one, secondaries attempted, flag re-set on
rejection), a live node means `(iterator, false)`; otherwise the fresh-insert
path runs. -/
def emplace (cfg : MIConfig Key Payload SKey) (s : MIState Key Payload SKey)
    (k : Key) (v : Payload) : MIState Key Payload SKey × Bool :=
  if cfg.primUnique then
    match s.primary.find? (fun r => decide (r.key = k)) with
    | some r0 =>
      if cfg.tombs then
        if r0.dead then
          let s1 := setPayload (setDead s r0.id false) r0.id v
          match AddSecs cfg s1 ⟨r0.id, r0.key, v, false⟩ with
          | (s2, true) => (IncrementLive cfg s2, true)
          | (s2, false) => (setDead s2 r0.id true, false)
        else (s, false)
      else (s, false)
    | none => insertNew cfg s k v
  else insertNew cfg s k v

/-- The body of `erase(iterator)` on a live record `r`: drop the secondaries,
then either set the tombstone flag or physically remove the node from the
primary, and decrement the live counter. -/
def eraseRec (cfg : MIConfig Key Payload SKey) (s : MIState Key Payload SKey)
    (r : MRecord Key Payload) : MIState Key Payload SKey :=
  let s1 := DropSecs cfg s r
  if cfg.tombs then DecrementLive cfg (setDead s1 r.id true)
  else
    DecrementLive cfg
      { s1 with primary := eraseFirst (fun x => decide (x.id = r.id)) s1.primary }

/-- `erase(iterator)` given the handle of the record the iterator points at;
an end iterator (absent identity) or a dead record (a live-skipping iterator
never yields one) leaves the state unchanged. -/
def eraseIter (cfg : MIConfig Key Payload SKey) (s : MIState Key Payload SKey)
    (rid : Nat) : MIState Key Payload SKey :=
  match lookupId s rid with
  | some r => if r.dead then s else eraseRec cfg s r
  | none => s

/-- `erase(primary_key)`: walk the equal-range of the key and call
`erase(iterator)` on each live entry (with a unique primary the loop body runs
at most once), returning the number of records removed. -/
def eraseKey (cfg : MIConfig Key Payload SKey) (s : MIState Key Payload SKey)
    (k : Key) : MIState Key Payload SKey × Nat :=
  let ts := s.primary.filter (fun r => decide (r.key = k) && !r.dead)
  if cfg.primUnique then
    match ts with
    | [] => (s, 0)
    | r :: _ => (eraseRec cfg s r, 1)
  else (ts.foldl (fun acc r => eraseRec cfg acc r) s, ts.length)

/-- `UpdateCore`, the shared drop-and-rebuild body of `modify` and `replace`:
snapshot the old payload and flag, clear the flag, drop the secondaries if the
record was live, apply the mutation, re-add the secondaries; a unique
secondary rejection restores the old payload and flag and re-adds the old
secondaries if previously live; reviving a dead record bumps the live
counter. -/
def UpdateCore (cfg : MIConfig Key Payload SKey) (s : MIState Key Payload SKey)
    (rid : Nat) (mf : Payload → Payload) : MIState Key Payload SKey × Bool :=
  match lookupId s rid with
  | none => (s, false)
  | some r =>
    let old := r.val
    let oldFlag := cfg.tombs && r.dead
    let s1 := if cfg.tombs then setDead s rid false else s
    let s2 := if oldFlag then s1 else DropSecs cfg s1 ⟨rid, r.key, old, false⟩
    let s3 := setPayload s2 rid (mf old)
    match AddSecs cfg s3 ⟨rid, r.key, mf old, false⟩ with
    | (s4, true) => (if oldFlag then IncrementLive cfg s4 else s4, true)
    | (s4, false) =>
      let s5 := setPayload s4 rid old
      let s6 := if cfg.tombs then setDead s5 rid r.dead else s5
      let s7 := if oldFlag then s6 else (AddSecs cfg s6 ⟨rid, r.key, old, oldFlag⟩).1
      (s7, false)

/-- `Replace`: short-circuit to `true` when the record is live and the payload
already equals the new value, otherwise run `UpdateCore` with assignment. -/
def Replace (cfg : MIConfig Key Payload SKey) (s : MIState Key Payload SKey)
    (rid : Nat) (v : Payload) : MIState Key Payload SKey × Bool :=
  match lookupId s rid with
  | none => (s, false)
  | some r =>
    let isLive := !(cfg.tombs && r.dead)
    if isLive && decide (r.val = v) then (s, true)
    else UpdateCore cfg s rid (fun _ => v)

/-- `SkipDead`: advance past tombstoned entries. -/
def SkipDead (l : List (MRecord Key Payload)) : List (MRecord Key Payload) :=
  l.dropWhile (fun r => r.dead)

/-- `find(key)`: take the equal-range of the key; without tombstones return
its first entry; with tombstones, if the first entry is dead a unique primary
reports the key absent, a multi primary skips forward to the first live entry
of the range. -/
def find (cfg : MIConfig Key Payload SKey) (s : MIState Key Payload SKey)
    (k : Key) : Option (MRecord Key Payload) :=
  let rng := s.primary.filter (fun r => decide (r.key = k))
  if cfg.tombs then
    match rng with
    | [] => none
    | r :: rs =>
      if r.dead then
        if cfg.primUnique then none else (SkipDead (r :: rs)).head?
      else some r
  else rng.head?

/-- `size()`: the live counter under tombstones, the primary size
otherwise. -/
def size (cfg : MIConfig Key Payload SKey) (s : MIState Key Payload SKey) :
    Nat :=
  if cfg.tombs then s.live else s.primary.length

/-- The records visited by `begin()..end()`: the live iterator skips
tombstoned entries. -/
def itList (cfg : MIConfig Key Payload SKey) (s : MIState Key Payload SKey) :
    List (MRecord Key Payload) :=
  if cfg.tombs then s.primary.filter (fun r => !r.dead) else s.primary

/-- `clear()`: clear the primary, every secondary, the policy state and the
live counter. -/
def clearOp (cfg : MIConfig Key Payload SKey) (s : MIState Key Payload SKey) :
    MIState Key Payload SKey :=
  { primary := []
    secs := s.secs.map (fun _ => ([] : List (SKey × Nat)))
    live := 0
    nextId := s.nextId }

/-- The (key, payload) pairs re-emplaced by `compact` and by the invalidating
copy paths: every record, skipping the dead ones when tombstones are
enabled. -/
def livePairs (cfg : MIConfig Key Payload SKey) (s : MIState Key Payload SKey) :
    List (Key × Payload) :=
  (s.primary.filter (fun r => !(cfg.tombs && r.dead))).map (fun r => (r.key, r.val))

/-- Emplace a list of (key, payload) pairs in order into an accumulator
state; this is the loop shared by `compact`, the invalidating copy
constructor and `CopyAssignCore`. -/
def buildFrom (cfg : MIConfig Key Payload SKey) (ps : List (Key × Payload))
    (acc : MIState Key Payload SKey) : MIState Key Payload SKey :=
  ps.foldl (fun a p => (emplace cfg a p.1 p.2).1) acc

/-- A default-constructed container. -/
def emptyState (cfg : MIConfig Key Payload SKey) : MIState Key Payload SKey :=
  { primary := []
    secs := cfg.specs.map (fun _ => [])
    live := 0
    nextId := 0 }

/-- `compact()`: emplace every live record into a fresh container and swap. -/
def compact (cfg : MIConfig Key Payload SKey) (s : MIState Key Payload SKey) :
    MIState Key Payload SKey :=
  buildFrom cfg (livePairs cfg s) (emptyState cfg)

/-- The invalidating copy constructor: element-wise emplace of the source's
records, skipping dead ones, into a freshly constructed container. -/
def copyCtorInv (cfg : MIConfig Key Payload SKey)
    (s : MIState Key Payload SKey) : MIState Key Payload SKey :=
  buildFrom cfg (livePairs cfg s) (emptyState cfg)

/-- `CopyAssignCore` in the invalidating case: `clear()` the destination, then
element-wise emplace of the source's records, skipping dead ones. -/
def copyAssignCore (cfg : MIConfig Key Payload SKey)
    (dst src : MIState Key Payload SKey) : MIState Key Payload SKey :=
  buildFrom cfg (livePairs cfg src) (clearOp cfg dst)

/-- Outcome of a secondary-insertion pass that can also raise a C++
exception. -/
inductive SecRes where
  | ok : Bool → SecRes
  | thrown : SecRes
  deriving DecidableEq

/-- The body of `AddSecs` when the map insert at position `t` (counted from
the current spec) raises an exception: the exception propagates out of the
fold, leaving the earlier insertions in place for the enclosing catch. -/
def addSecsTryAux (k : Key) (v : Payload) (rid : Nat) :
    Option Nat → List (SecSpec Key Payload SKey) → List (List (SKey × Nat)) →
    List (List (SKey × Nat)) × SecRes
  | _, [], ms => (ms, .ok true)
  | _, _ :: _, [] => ([], .ok true)
  | t, spec :: specs, m :: ms =>
    if t = some 0 then (m :: ms, .thrown)
    else
      let sk := spec.proj k v
      if spec.uniq && m.any (fun e => decide (e.1 = sk)) then (m :: ms, .ok false)
      else
        match addSecsTryAux k v rid (t.map (fun n => n - 1)) specs ms with
        | (tail, .ok true) => ((m ++ [(sk, rid)]) :: tail, .ok true)
        | (tail, .ok false) =>
          (eraseFirst (secMatch sk rid) (m ++ [(sk, rid)]) :: tail, .ok false)
        | (tail, .thrown) => ((m ++ [(sk, rid)]) :: tail, .thrown)

/-- `AddSecs` with its catch clause: when an exception escapes a secondary
insert, `DropSecs(h)` removes the partially written entries and the exception
is rethrown. -/
def AddSecsTry (cfg : MIConfig Key Payload SKey) (s : MIState Key Payload SKey)
    (r : MRecord Key Payload) (t : Option Nat) :
    MIState Key Payload SKey × SecRes :=
  match addSecsTryAux r.key r.val r.id t cfg.specs s.secs with
  | (ms, .thrown) => (DropSecs cfg { s with secs := ms } r, .thrown)
  | (ms, res) => ({ s with secs := ms }, res)

/-- The fresh-insert path of `emplace` when the secondary insert at position
`t` raises: the catch erases the just-inserted primary node
(`OnEmplaceFail` followed by `m_storage.erase(it)`) and rethrows. -/
def insertNewTry (cfg : MIConfig Key Payload SKey)
    (s : MIState Key Payload SKey) (k : Key) (v : Payload) (t : Option Nat) :
    MIState Key Payload SKey × SecRes :=
  let r : MRecord Key Payload := ⟨s.nextId, k, v, false⟩
  let s1 : MIState Key Payload SKey :=
    { s with primary := s.primary ++ [r], nextId := s.nextId + 1 }
  match AddSecsTry cfg s1 r t with
  | (s2, .ok true) => (IncrementLive cfg s2, .ok true)
  | (s2, res) => ({ s2 with primary := s2.primary.dropLast }, res)

/-- One mutating operation of the container's public interface. -/
inductive Step (cfg : MIConfig Key Payload SKey) :
    MIState Key Payload SKey → MIState Key Payload SKey → Prop where
  | stepEmplace (s : MIState Key Payload SKey) (k : Key) (v : Payload) :
      Step cfg s (emplace cfg s k v).1
  | stepEraseIter (s : MIState Key Payload SKey) (rid : Nat) :
      Step cfg s (eraseIter cfg s rid)
  | stepEraseKey (s : MIState Key Payload SKey) (k : Key) :
      Step cfg s (eraseKey cfg s k).1
  | stepModify (s : MIState Key Payload SKey) (rid : Nat)
      (mf : Payload → Payload) : Step cfg s (UpdateCore cfg s rid mf).1
  | stepReplace (s : MIState Key Payload SKey) (rid : Nat) (v : Payload) :
      Step cfg s (Replace cfg s rid v).1
  | stepClear (s : MIState Key Payload SKey) : Step cfg s (clearOp cfg s)
  | stepCompact (s : MIState Key Payload SKey) : Step cfg s (compact cfg s)

/-- States reachable from a default-constructed container by any sequence of
operations. -/
def Reachable (cfg : MIConfig Key Payload SKey)
    (s : MIState Key Payload SKey) : Prop :=
  Relation.ReflTransGen (Step cfg) (emptyState cfg) s

/-- Resolve a stored secondary reference to the observable (key, payload) of
the record it points at. -/
def resolveObs (prim : List (MRecord Key Payload)) (rid : Nat) :
    Option (Key × Payload) :=
  (prim.find? (fun r => decide (r.id = rid))).map (fun r => (r.key, r.val))

/-- Observable content of one secondary map: each entry's sub-key together
with the record its stored reference resolves to. -/
def secObs (prim : List (MRecord Key Payload)) (m : List (SKey × Nat)) :
    List (SKey × Option (Key × Payload)) :=
  m.map (fun e => (e.1, resolveObs prim e.2))

/-- The entries a coherent secondary map must hold: one (sub-key, handle)
entry per live record. -/
def expectedSec (spec : SecSpec Key Payload SKey)
    (prim : List (MRecord Key Payload)) : List (SKey × Nat) :=
  (prim.filter (fun r => !r.dead)).map (fun r => (spec.proj r.key r.val, r.id))

/-- Secondary coherence: each secondary map holds, as a multiset, exactly one
entry per live record, and unique secondary maps have pairwise distinct
sub-keys. -/
def Coherent (cfg : MIConfig Key Payload SKey)
    (s : MIState Key Payload SKey) : Prop :=
  List.Forall₂
    (fun spec m => m.Perm (expectedSec spec s.primary) ∧
      (spec.uniq = true → (m.map Prod.fst).Nodup))
    cfg.specs s.secs

/-- The inductive invariant of the container. -/
structure Inv (cfg : MIConfig Key Payload SKey)
    (s : MIState Key Payload SKey) : Prop where
  ids_nodup : (s.primary.map (fun r => r.id)).Nodup
  ids_lt : ∀ r ∈ s.primary, r.id < s.nextId
  keys_nodup : cfg.primUnique = true → (s.primary.map (fun r => r.key)).Nodup
  no_dead : cfg.tombs = false → ∀ r ∈ s.primary, r.dead = false
  live_eq : cfg.tombs = true →
    s.live = (s.primary.filter (fun r => !r.dead)).length
  coh : Coherent cfg s

/-- A concrete instantiation used to exercise the development: unique
tombstoned primary over naturals with one unique secondary keyed by the
payload. -/
def cfg1 : MIConfig Nat Nat Nat :=
  { primUnique := true, tombs := true, specs := [{ proj := fun _ v => v, uniq := true }] }

/-- `cfg1` after emplacing (1, 5). -/
def st1 : MIState Nat Nat Nat := (emplace cfg1 (emptyState cfg1) 1 5).1

/-- `st1` after erasing key 1 through its iterator, leaving a tombstone. -/
def st2 : MIState Nat Nat Nat := eraseIter cfg1 st1 0

/-- `st1` after additionally emplacing (2, 6). -/
def st3 : MIState Nat Nat Nat := (emplace cfg1 st1 2 6).1

/-! ### Basic lemmas about `eraseFirst` -/

theorem eraseFirst_of_forall_not {p : α → Bool} {l : List α}
    (h : ∀ a ∈ l, p a = false) : eraseFirst p l = l := by
  induction l with
  | nil => rfl
  | cons a l ih =>
    simp only [eraseFirst, h a (by simp), Bool.false_eq_true, if_false, List.cons.injEq,
      true_and]
    exact ih fun a ha => h a (by simp [ha])

theorem eraseFirst_append_left {p : α → Bool} {l₁ : List α} (l₂ : List α)
    (h : ∀ a ∈ l₁, p a = false) :
    eraseFirst p (l₁ ++ l₂) = l₁ ++ eraseFirst p l₂ := by
  induction l₁ with
  | nil => rfl
  | cons a l ih =>
    simp only [List.cons_append, eraseFirst, h a (by simp), Bool.false_eq_true, if_false,
      List.cons.injEq, true_and]
    exact ih fun a ha => h a (by simp [ha])

theorem eraseFirst_concat {p : α → Bool} {l : List α} {x : α}
    (h : ∀ a ∈ l, p a = false) (hx : p x = true) :
    eraseFirst p (l ++ [x]) = l := by
  rw [eraseFirst_append_left _ h]
  simp [eraseFirst, hx]

theorem eraseFirst_sublist (p : α → Bool) (l : List α) :
    (eraseFirst p l).Sublist l := by
  induction l with
  | nil => exact List.Sublist.refl _
  | cons a l ih =>
    by_cases hp : p a = true
    · simpa [eraseFirst, hp] using List.sublist_cons_self a l
    · simp only [eraseFirst, hp, if_false]
      exact ih.cons₂ a

theorem eraseFirst_eq_erase [DecidableEq α] {p : α → Bool} {l : List α} {x : α}
    (h : ∀ a ∈ l, (p a = true ↔ a = x)) :
    eraseFirst p l = l.erase x := by
  induction l with
  | nil => rfl
  | cons a l ih =>
    by_cases ha : a = x
    · subst ha
      simp [eraseFirst, (h a (by simp)).2 rfl, List.erase_cons_head]
    · have hpa : p a = false := by
        cases hp : p a
        · rfl
        · exact absurd ((h a (by simp)).1 hp) ha
      rw [List.erase_cons_tail]
      · simp only [eraseFirst, hpa, Bool.false_eq_true, if_false, List.cons.injEq, true_and]
        exact ih fun a ha => h a (by simp [ha])
      · simp [ha]

theorem mem_of_mem_eraseFirst {p : α → Bool} {l : List α} {a : α}
    (h : a ∈ eraseFirst p l) : a ∈ l :=
  (eraseFirst_sublist p l).mem h

/-! ### Decomposition helpers for the primary list -/

theorem split_of_mem_nodup {prim : List (MRecord Key Payload)}
    {r : MRecord Key Payload} (hmem : r ∈ prim)
    (hn : (prim.map (fun x => x.id)).Nodup) :
    ∃ A B, prim = A ++ r :: B ∧ (∀ x ∈ A, x.id ≠ r.id) ∧
      (∀ x ∈ B, x.id ≠ r.id) := by
  obtain ⟨A, B, rfl⟩ := List.append_of_mem hmem
  refine ⟨A, B, rfl, ?_, ?_⟩
  · intro x hx hid
    have h1 : (A.map (fun x => x.id) ++ r.id :: B.map (fun x => x.id)).Nodup := by
      simpa using hn
    have h2 := (List.nodup_cons.mp (List.nodup_middle.mp h1)).1
    exact h2 (by rw [← hid]; simp only [List.mem_append]; exact Or.inl (List.mem_map_of_mem _ hx))
  · intro x hx hid
    have h1 : (A.map (fun x => x.id) ++ r.id :: B.map (fun x => x.id)).Nodup := by
      simpa using hn
    have h2 := (List.nodup_cons.mp (List.nodup_middle.mp h1)).1
    exact h2 (by rw [← hid]; simp only [List.mem_append]; exact Or.inr (List.mem_map_of_mem _ hx))

theorem map_upd_of_forall_ne {g : MRecord Key Payload → MRecord Key Payload}
    {A : List (MRecord Key Payload)} {rid : Nat}
    (hA : ∀ x ∈ A, x.id ≠ rid) :
    A.map (fun x => if x.id = rid then g x else x) = A := by
  induction A with
  | nil => rfl
  | cons a l ih =>
    simp only [List.map_cons, hA a (by simp), if_false, List.cons.injEq, true_and]
    exact ih fun x hx => hA x (by simp [hx])

theorem map_upd_split {g : MRecord Key Payload → MRecord Key Payload}
    {A B : List (MRecord Key Payload)} {r : MRecord Key Payload} {rid : Nat}
    (hr : r.id = rid)
    (hA : ∀ x ∈ A, x.id ≠ rid) (hB : ∀ x ∈ B, x.id ≠ rid) :
    (A ++ r :: B).map (fun x => if x.id = rid then g x else x) =
      A ++ g r :: B := by
  rw [List.map_append, List.map_cons, map_upd_of_forall_ne hA,
    map_upd_of_forall_ne hB, if_pos hr]

theorem eraseFirst_id_split {A B : List (MRecord Key Payload)}
    {r : MRecord Key Payload} {rid : Nat} (hr : r.id = rid)
    (hA : ∀ x ∈ A, x.id ≠ rid) :
    eraseFirst (fun x => decide (x.id = rid)) (A ++ r :: B) = A ++ B := by
  rw [eraseFirst_append_left]
  · simp [eraseFirst, hr]
  · intro a ha
    simpa using hA a ha

/-! ### Lemmas about `expectedSec` -/

theorem expectedSec_append (spec : SecSpec Key Payload SKey)
    (A B : List (MRecord Key Payload)) :
    expectedSec spec (A ++ B) = expectedSec spec A ++ expectedSec spec B := by
  simp [expectedSec, List.filter_append]

theorem expectedSec_cons_live {spec : SecSpec Key Payload SKey}
    {r : MRecord Key Payload} (B : List (MRecord Key Payload))
    (h : r.dead = false) :
    expectedSec spec (r :: B) =
      (spec.proj r.key r.val, r.id) :: expectedSec spec B := by
  simp [expectedSec, List.filter_cons, h]

theorem expectedSec_cons_dead {spec : SecSpec Key Payload SKey}
    {r : MRecord Key Payload} (B : List (MRecord Key Payload))
    (h : r.dead = true) :
    expectedSec spec (r :: B) = expectedSec spec B := by
  simp [expectedSec, List.filter_cons, h]

theorem mem_expectedSec {spec : SecSpec Key Payload SKey}
    {prim : List (MRecord Key Payload)} {e : SKey × Nat} :
    e ∈ expectedSec spec prim ↔
      ∃ r ∈ prim, r.dead = false ∧ e = (spec.proj r.key r.val, r.id) := by
  simp only [expectedSec, List.mem_map, List.mem_filter, Bool.not_eq_eq_eq_not,
    Bool.not_true]
  constructor
  · rintro ⟨r, ⟨hr, hd⟩, rfl⟩
    exact ⟨r, hr, hd, rfl⟩
  · rintro ⟨r, hr, hd, rfl⟩
    exact ⟨r, ⟨hr, hd⟩, rfl⟩

theorem expectedSec_snd_nodup (spec : SecSpec Key Payload SKey)
    {prim : List (MRecord Key Payload)}
    (h : (prim.map (fun r => r.id)).Nodup) :
    ((expectedSec spec prim).map Prod.snd).Nodup := by
  have h1 : (expectedSec spec prim).map Prod.snd =
      (prim.filter (fun r => !r.dead)).map (fun r => r.id) := by
    simp [expectedSec, List.map_map, Function.comp]
  rw [h1]
  exact h.sublist (List.Sublist.map _ (List.filter_sublist prim))

/-! ### Generic `Forall₂` helpers -/

theorem forall₂_mem_right {β γ : Type} {P : β → γ → Prop} {as : List β}
    {bs : List γ} (h : List.Forall₂ P as bs) {b : γ} (hb : b ∈ bs) :
    ∃ a ∈ as, P a b := by
  induction h with
  | nil => cases hb
  | @cons a b' as' bs' hP hrest ih =>
    rcases List.mem_cons.mp hb with rfl | hb'
    · exact ⟨a, by simp, hP⟩
    · obtain ⟨a', ha', hPa'⟩ := ih hb'
      exact ⟨a', by simp [ha'], hPa'⟩

theorem forall₂_mem_left {β γ : Type} {P : β → γ → Prop} {as : List β}
    {bs : List γ} (h : List.Forall₂ P as bs) {a : β} (ha : a ∈ as) :
    ∃ b ∈ bs, P a b := by
  induction h with
  | nil => cases ha
  | @cons a' b' as' bs' hP hrest ih =>
    rcases List.mem_cons.mp ha with rfl | ha'
    · exact ⟨b', by simp, hP⟩
    · obtain ⟨b, hb, hPb⟩ := ih ha'
      exact ⟨b, by simp [hb], hPb⟩

theorem forall₂_imp_mem {β γ : Type} {P Q : β → γ → Prop} {as : List β}
    {bs : List γ} (h : List.Forall₂ P as bs)
    (himp : ∀ a b, a ∈ as → P a b → Q a b) : List.Forall₂ Q as bs := by
  induction h with
  | nil => exact List.Forall₂.nil
  | @cons a b as' bs' hP hrest ih =>
    exact List.Forall₂.cons (himp a b (by simp) hP)
      (ih fun a' b' ha' hP' => himp a' b' (by simp [ha']) hP')

theorem forall₂_zipWith_left {β γ : Type} {P Q : β → γ → Prop} {f : β → γ → γ}
    {as : List β} {bs : List γ} (h : List.Forall₂ P as bs)
    (himp : ∀ a b, P a b → Q a (f a b)) :
    List.Forall₂ Q as (List.zipWith f as bs) := by
  induction h with
  | nil => exact List.Forall₂.nil
  | @cons a b as' bs' hP hrest ih =>
    exact List.Forall₂.cons (himp a b hP) ih

theorem forall₂_zip_zipWith {β γ : Type} {f : β → γ → γ} {Q : β → γ × γ → Prop}
    {as : List β} {bs : List γ} (hlen : as.length = bs.length)
    (himp : ∀ a b, Q a (b, f a b)) :
    List.Forall₂ Q as (bs.zip (List.zipWith f as bs)) := by
  induction as generalizing bs with
  | nil => cases bs <;> simp_all [List.Forall₂.nil]
  | cons a as ih =>
    cases bs with
    | nil => simp at hlen
    | cons b bs =>
      simp only [List.zipWith_cons_cons, List.zip_cons_cons]
      exact List.Forall₂.cons (himp a b) (ih (by simpa using hlen))

theorem forall₂_map_right_const {β γ δ : Type} {Q : β → δ → Prop}
    {as : List β} {bs : List γ} (hlen : as.length = bs.length) {c : δ}
    (hc : ∀ a ∈ as, Q a c) :
    List.Forall₂ Q as (bs.map (fun _ => c)) := by
  induction as generalizing bs with
  | nil => cases bs <;> simp_all [List.Forall₂.nil]
  | cons a as ih =>
    cases bs with
    | nil => simp at hlen
    | cons b bs =>
      exact List.Forall₂.cons (hc a (by simp))
        (ih (by simpa using hlen) (fun a' ha' => hc a' (by simp [ha'])))

/-! ### Consequences of the invariant -/

theorem Inv.not_ref_of_not_live {cfg : MIConfig Key Payload SKey}
    {s : MIState Key Payload SKey} (hInv : Inv cfg s) {rid : Nat}
    (hrid : ∀ r ∈ s.primary, r.dead = false → r.id ≠ rid) :
    ∀ m ∈ s.secs, ∀ e ∈ m, e.2 ≠ rid := by
  intro m hm e he
  obtain ⟨spec, _, hperm, _⟩ := forall₂_mem_right hInv.coh hm
  have he2 : e ∈ expectedSec spec s.primary := hperm.subset he
  obtain ⟨r, hr, hd, rfl⟩ := mem_expectedSec.mp he2
  exact hrid r hr hd

theorem Inv.fresh_not_ref {cfg : MIConfig Key Payload SKey}
    {s : MIState Key Payload SKey} (hInv : Inv cfg s) :
    ∀ m ∈ s.secs, ∀ e ∈ m, e.2 ≠ s.nextId :=
  hInv.not_ref_of_not_live fun r hr _ =>
    Nat.ne_of_lt (hInv.ids_lt r hr)

theorem Inv.dead_not_ref {cfg : MIConfig Key Payload SKey}
    {s : MIState Key Payload SKey} (hInv : Inv cfg s)
    {r0 : MRecord Key Payload} (hr0 : r0 ∈ s.primary) (hd : r0.dead = true) :
    ∀ m ∈ s.secs, ∀ e ∈ m, e.2 ≠ r0.id := by
  refine hInv.not_ref_of_not_live fun r hr hlive hid => ?_
  have : r = r0 := List.inj_on_of_nodup_map hInv.ids_nodup hr hr0 hid
  subst this
  rw [hd] at hlive
  cases hlive

theorem expected_entry_of_ref {spec : SecSpec Key Payload SKey}
    {prim : List (MRecord Key Payload)} {r : MRecord Key Payload}
    (hn : (prim.map (fun x => x.id)).Nodup) (hr : r ∈ prim)
    {e : SKey × Nat} (he : e ∈ expectedSec spec prim) (hid : e.2 = r.id) :
    e = (spec.proj r.key r.val, r.id) := by
  obtain ⟨r', hr', hd', rfl⟩ := mem_expectedSec.mp he
  have : r' = r := List.inj_on_of_nodup_map hn hr' hr hid
  subst this
  rfl

/-! ### Shape lemmas for `addSecsAux`, `dropSecsAux` -/

theorem secMatch_self (sk : SKey) (rid : Nat) : secMatch sk rid (sk, rid) = true := by
  simp [secMatch]

theorem secMatch_false_of_ne_ref {sk : SKey} {rid : Nat} {e : SKey × Nat}
    (h : e.2 ≠ rid) : secMatch sk rid e = false := by
  simp [secMatch, h]

theorem addSecsAux_true_eq (k : Key) (v : Payload) (rid : Nat) :
    ∀ {specs : List (SecSpec Key Payload SKey)} {ms : List (List (SKey × Nat))},
    specs.length = ms.length →
    (addSecsAux k v rid specs ms).2 = true →
    (addSecsAux k v rid specs ms).1 =
      List.zipWith (fun spec m => m ++ [(spec.proj k v, rid)]) specs ms := by
  intro specs
  induction specs with
  | nil =>
    intro ms hlen _
    cases ms
    · rfl
    · simp at hlen
  | cons spec specs ih =>
    intro ms hlen hok
    cases ms with
    | nil => simp at hlen
    | cons m ms =>
      by_cases hcol : (spec.uniq && m.any fun e => decide (e.1 = spec.proj k v)) = true
      · simp [addSecsAux, hcol] at hok
      · rcases hrec : addSecsAux k v rid specs ms with ⟨tail, ok⟩
        cases ok with
        | true =>
          have htail := ih (by simpa using hlen) (by rw [hrec])
          rw [hrec] at htail
          simp only [addSecsAux, hcol, Bool.false_eq_true, if_false, hrec]
          simpa using htail
        | false =>
          simp [addSecsAux, hcol, hrec] at hok

theorem addSecsAux_true_of_nocollision {k : Key} {v : Payload} {rid : Nat}
    {specs : List (SecSpec Key Payload SKey)} {ms : List (List (SKey × Nat))}
    (hok : List.Forall₂
      (fun spec m => spec.uniq = true → ∀ e ∈ m, e.1 ≠ spec.proj k v) specs ms) :
    (addSecsAux k v rid specs ms).2 = true := by
  induction hok with
  | nil => rfl
  | @cons spec m specs ms hP hrest ih =>
    have hcol : (spec.uniq && m.any fun e => decide (e.1 = spec.proj k v)) = false := by
      cases hu : spec.uniq
      · simp
      · simp only [Bool.true_and]
        rw [List.any_eq_false]
        intro e he
        simpa using hP hu e he
    rcases hrec : addSecsAux k v rid specs ms with ⟨tail, ok⟩
    rw [hrec] at ih
    cases ok with
    | true => simp [addSecsAux, hcol, hrec]
    | false => simp at ih


theorem addSecsAux_true_nocollision {k : Key} {v : Payload} {rid : Nat} :
    ∀ {specs : List (SecSpec Key Payload SKey)} {ms : List (List (SKey × Nat))},
    specs.length = ms.length →
    (addSecsAux k v rid specs ms).2 = true →
    List.Forall₂
      (fun spec m => spec.uniq = true → ∀ e ∈ m, e.1 ≠ spec.proj k v) specs ms := by
  intro specs
  induction specs with
  | nil =>
    intro ms hlen _
    cases ms
    · exact List.Forall₂.nil
    · simp at hlen
  | cons spec specs ih =>
    intro ms hlen hok
    cases ms with
    | nil => simp at hlen
    | cons m ms =>
      by_cases hcol : (spec.uniq && m.any fun e => decide (e.1 = spec.proj k v)) = true
      · simp [addSecsAux, hcol] at hok
      · rcases hrec : addSecsAux k v rid specs ms with ⟨tail, ok⟩
        cases ok with
        | true =>
          refine List.Forall₂.cons ?_ (ih (by simpa using hlen) (by rw [hrec]))
          intro hu e he heq
          apply hcol
          rw [hu]
          simp only [Bool.true_and, List.any_eq_true]
          exact ⟨e, he, by simp [heq]⟩
        | false =>
          simp [addSecsAux, hcol, hrec] at hok

theorem addSecsAux_false_eq {k : Key} {v : Payload} {rid : Nat} :
    ∀ {specs : List (SecSpec Key Payload SKey)} {ms : List (List (SKey × Nat))},
    (∀ m ∈ ms, ∀ e ∈ m, e.2 ≠ rid) →
    (addSecsAux k v rid specs ms).2 = false →
    (addSecsAux k v rid specs ms).1 = ms := by
  intro specs
  induction specs with
  | nil =>
    intro ms _ hok
    simp [addSecsAux] at hok
  | cons spec specs ih =>
    intro ms hfresh hok
    cases ms with
    | nil => simp [addSecsAux] at hok
    | cons m ms =>
      by_cases hcol : (spec.uniq && m.any fun e => decide (e.1 = spec.proj k v)) = true
      · simp [addSecsAux, hcol]
      · rcases hrec : addSecsAux k v rid specs ms with ⟨tail, ok⟩
        cases ok with
        | true => simp [addSecsAux, hcol, hrec] at hok
        | false =>
          have htail : tail = ms := by
            have h2 := @ih ms
              (fun m' hm' => hfresh m' (List.mem_cons_of_mem _ hm')) (by rw [hrec])
            rw [hrec] at h2
            exact h2
          have hm : eraseFirst (secMatch (spec.proj k v) rid)
              (m ++ [(spec.proj k v, rid)]) = m := by
            refine eraseFirst_concat ?_ (secMatch_self _ _)
            intro e he
            exact secMatch_false_of_ne_ref (hfresh m (by simp) e he)
          simp [addSecsAux, hcol, hrec, htail, hm]

theorem dropSecsAux_of_not_ref {k : Key} {v : Payload} {rid : Nat} :
    ∀ {specs : List (SecSpec Key Payload SKey)} {ms : List (List (SKey × Nat))},
    (∀ m ∈ ms, ∀ e ∈ m, e.2 ≠ rid) → specs.length = ms.length →
    dropSecsAux k v rid specs ms = ms := by
  intro specs
  induction specs with
  | nil => intro ms _ _; rfl
  | cons spec specs ih =>
    intro ms hfresh hlen
    cases ms with
    | nil => simp at hlen
    | cons m ms =>
      have hm : eraseFirst (secMatch (spec.proj k v) rid) m = m := by
        refine eraseFirst_of_forall_not ?_
        intro e he
        exact secMatch_false_of_ne_ref (hfresh m (by simp) e he)
      simp only [dropSecsAux, hm, List.cons.injEq, true_and]
      exact ih (fun m' hm' => hfresh m' (by simp [hm'])) (by simpa using hlen)

theorem dropSecsAux_eq_zipWith {k : Key} {v : Payload} {rid : Nat} :
    ∀ {specs : List (SecSpec Key Payload SKey)} {ms : List (List (SKey × Nat))},
    specs.length = ms.length →
    dropSecsAux k v rid specs ms =
      List.zipWith (fun spec m => eraseFirst (secMatch (spec.proj k v) rid) m)
        specs ms := by
  intro specs
  induction specs with
  | nil =>
    intro ms hlen
    cases ms
    · rfl
    · simp at hlen
  | cons spec specs ih =>
    intro ms hlen
    cases ms with
    | nil => simp at hlen
    | cons m ms =>
      simp only [dropSecsAux, List.zipWith_cons_cons, List.cons.injEq, true_and]
      exact ih (by simpa using hlen)

/-! ### Removing and re-adding one record's entry in a coherent secondary -/

theorem expected_nodup {spec : SecSpec Key Payload SKey}
    {prim : List (MRecord Key Payload)}
    (hn : (prim.map (fun x => x.id)).Nodup) :
    (expectedSec spec prim).Nodup :=
  (expectedSec_snd_nodup spec hn).of_map _

theorem eraseFirst_decomp {p : α → Bool} :
    ∀ {l : List α} {x : α}, x ∈ l → (∀ a ∈ l, (p a = true ↔ a = x)) →
    ∃ C D, l = C ++ x :: D ∧ eraseFirst p l = C ++ D := by
  intro l
  induction l with
  | nil => intro x hx; cases hx
  | cons a l ih =>
    intro x hx hpin
    by_cases hpa : p a = true
    · have hax : a = x := (hpin a (by simp)).1 hpa
      subst hax
      exact ⟨[], l, rfl, by simp [eraseFirst, hpa]⟩
    · have hax : a ≠ x := fun h => hpa ((hpin a (by simp)).2 h)
      have hxl : x ∈ l := by
        rcases List.mem_cons.mp hx with h | h
        · exact absurd h.symm hax
        · exact h
      obtain ⟨C, D, hl, he⟩ := ih hxl fun a' ha' => hpin a' (by simp [ha'])
      refine ⟨a :: C, D, by simp [hl], ?_⟩
      simp [eraseFirst, hpa, he]

theorem eraseFirst_perm_pin {p : α → Bool} {l₁ l₂ : List α} {x : α}
    (h : l₁.Perm l₂) (hpin : ∀ a ∈ l₁, (p a = true ↔ a = x)) (hx : x ∈ l₁) :
    (eraseFirst p l₁).Perm (eraseFirst p l₂) := by
  obtain ⟨C₁, D₁, hl₁, he₁⟩ := eraseFirst_decomp hx hpin
  obtain ⟨C₂, D₂, hl₂, he₂⟩ :=
    eraseFirst_decomp (h.subset hx) fun a ha => hpin a (h.mem_iff.mpr ha)
  rw [he₁, he₂]
  have hmid : (C₁ ++ x :: D₁).Perm (C₂ ++ x :: D₂) := by
    rw [← hl₁, ← hl₂]; exact h
  have h2 : (x :: (C₁ ++ D₁)).Perm (x :: (C₂ ++ D₂)) :=
    (List.perm_middle.symm.trans hmid).trans List.perm_middle
  exact h2.cons_inv

theorem pin_of_coherent {spec : SecSpec Key Payload SKey}
    {m : List (SKey × Nat)} {prim : List (MRecord Key Payload)}
    {r : MRecord Key Payload}
    (hperm : m.Perm (expectedSec spec prim))
    (hn : (prim.map (fun x => x.id)).Nodup) (hr : r ∈ prim) :
    ∀ e ∈ m, (secMatch (spec.proj r.key r.val) r.id e = true ↔
      e = (spec.proj r.key r.val, r.id)) := by
  intro e he
  constructor
  · intro hmatch
    have h2 : e.2 = r.id := by
      simp only [secMatch, Bool.and_eq_true, decide_eq_true_eq] at hmatch
      exact hmatch.2
    exact expected_entry_of_ref hn hr (hperm.subset he) h2
  · rintro rfl
    exact secMatch_self _ _

theorem eraseFirst_entry_perm {spec : SecSpec Key Payload SKey}
    {m : List (SKey × Nat)} {A B : List (MRecord Key Payload)}
    {r : MRecord Key Payload}
    (hperm : m.Perm (expectedSec spec (A ++ r :: B)))
    (hn : ((A ++ r :: B).map (fun x => x.id)).Nodup)
    (hlive : r.dead = false) :
    (eraseFirst (secMatch (spec.proj r.key r.val) r.id) m).Perm
      (expectedSec spec A ++ expectedSec spec B) := by
  have hrmem : r ∈ A ++ r :: B := by simp
  have hxmem : (spec.proj r.key r.val, r.id) ∈ expectedSec spec (A ++ r :: B) :=
    mem_expectedSec.mpr ⟨r, hrmem, hlive, rfl⟩
  have hpin := pin_of_coherent hperm hn hrmem
  obtain ⟨C, D, hl, he⟩ := eraseFirst_decomp (hperm.mem_iff.mpr hxmem) hpin
  rw [he]
  have hsplit : expectedSec spec (A ++ r :: B) =
      expectedSec spec A ++ (spec.proj r.key r.val, r.id) :: expectedSec spec B := by
    rw [expectedSec_append, expectedSec_cons_live _ hlive]
  have hmid : (C ++ (spec.proj r.key r.val, r.id) :: D).Perm
      (expectedSec spec A ++ (spec.proj r.key r.val, r.id) :: expectedSec spec B) := by
    rw [← hl, ← hsplit]; exact hperm
  have h2 : ((spec.proj r.key r.val, r.id) :: (C ++ D)).Perm
      ((spec.proj r.key r.val, r.id) :: (expectedSec spec A ++ expectedSec spec B)) :=
    (List.perm_middle.symm.trans hmid).trans List.perm_middle
  exact h2.cons_inv

theorem eraseFirst_entry_not_ref {spec : SecSpec Key Payload SKey}
    {m : List (SKey × Nat)} {prim : List (MRecord Key Payload)}
    {r : MRecord Key Payload}
    (hperm : m.Perm (expectedSec spec prim))
    (hn : (prim.map (fun x => x.id)).Nodup) (hr : r ∈ prim)
    (hlive : r.dead = false) :
    ∀ e ∈ eraseFirst (secMatch (spec.proj r.key r.val) r.id) m, e.2 ≠ r.id := by
  have hxmem : (spec.proj r.key r.val, r.id) ∈ expectedSec spec prim :=
    mem_expectedSec.mpr ⟨r, hr, hlive, rfl⟩
  have hpin := pin_of_coherent hperm hn hr
  obtain ⟨C, D, hl, he⟩ := eraseFirst_decomp (hperm.mem_iff.mpr hxmem) hpin
  intro e hemem hid
  rw [he] at hemem
  have hex : e = (spec.proj r.key r.val, r.id) := by
    have hem : e ∈ m := by
      rw [hl]
      rcases List.mem_append.mp hemem with h | h
      · exact List.mem_append.mpr (Or.inl h)
      · exact List.mem_append.mpr (Or.inr (List.mem_cons_of_mem _ h))
    exact expected_entry_of_ref hn hr (hperm.subset hem) hid
  have hmn : m.Nodup := hperm.nodup_iff.mpr (expected_nodup hn)
  rw [hl] at hmn
  have hx_not : (spec.proj r.key r.val, r.id) ∉ C ++ D :=
    (List.nodup_cons.mp (List.nodup_middle.mp hmn)).1
  rw [hex] at hemem
  exact hx_not hemem

theorem eraseFirst_entry_fst_ne {m : List (SKey × Nat)} {sk : SKey} {rid : Nat}
    (hnod : (m.map Prod.fst).Nodup) {C D : List (SKey × Nat)}
    (hl : m = C ++ (sk, rid) :: D) :
    ∀ e ∈ C ++ D, e.1 ≠ sk := by
  intro e he heq
  have h1 : (m.map Prod.fst) = C.map Prod.fst ++ sk :: D.map Prod.fst := by
    simp [hl]
  rw [h1] at hnod
  have h2 : sk ∉ C.map Prod.fst ++ D.map Prod.fst :=
    (List.nodup_cons.mp (List.nodup_middle.mp hnod)).1
  apply h2
  rw [← heq, ← List.map_append]
  exact List.mem_map_of_mem _ he

theorem eraseFirst_entry_fst {spec : SecSpec Key Payload SKey}
    {m : List (SKey × Nat)} {prim : List (MRecord Key Payload)}
    {r : MRecord Key Payload}
    (hperm : m.Perm (expectedSec spec prim))
    (hn : (prim.map (fun x => x.id)).Nodup) (hr : r ∈ prim)
    (hlive : r.dead = false) (hnod : (m.map Prod.fst).Nodup) :
    ∀ e ∈ eraseFirst (secMatch (spec.proj r.key r.val) r.id) m,
      e.1 ≠ spec.proj r.key r.val := by
  have hxmem : (spec.proj r.key r.val, r.id) ∈ expectedSec spec prim :=
    mem_expectedSec.mpr ⟨r, hr, hlive, rfl⟩
  have hpin := pin_of_coherent hperm hn hr
  obtain ⟨C, D, hl, he⟩ := eraseFirst_decomp (hperm.mem_iff.mpr hxmem) hpin
  rw [he]
  exact eraseFirst_entry_fst_ne hnod hl

theorem append_entry_perm {m eA eB : List (SKey × Nat)} {x : SKey × Nat}
    (h : m.Perm (eA ++ eB)) : (m ++ [x]).Perm (eA ++ x :: eB) :=
  ((List.perm_append_singleton x m).trans (h.cons x)).trans List.perm_middle.symm

/-! ### State-level helper lemmas -/

theorem Inv.secs_len {cfg : MIConfig Key Payload SKey}
    {s : MIState Key Payload SKey} (hInv : Inv cfg s) :
    cfg.specs.length = s.secs.length := hInv.coh.length_eq

theorem Inv.split {cfg : MIConfig Key Payload SKey}
    {s : MIState Key Payload SKey} (hInv : Inv cfg s)
    {r : MRecord Key Payload} (hr : r ∈ s.primary) :
    ∃ A B, s.primary = A ++ r :: B ∧ (∀ x ∈ A, x.id ≠ r.id) ∧
      (∀ x ∈ B, x.id ≠ r.id) :=
  split_of_mem_nodup hr hInv.ids_nodup

theorem forall₂_and {β γ : Type} {P Q : β → γ → Prop} {as : List β}
    {bs : List γ} (h1 : List.Forall₂ P as bs) (h2 : List.Forall₂ Q as bs) :
    List.Forall₂ (fun a b => P a b ∧ Q a b) as bs := by
  induction h1 with
  | nil => exact List.Forall₂.nil
  | @cons a b as' bs' hP hrest ih =>
    rcases h2 with _ | ⟨hQ, hrest2⟩
    exact List.Forall₂.cons ⟨hP, hQ⟩ (ih hrest2)

theorem find?_split {p : α → Bool} {A B : List α} {x : α}
    (hA : ∀ a ∈ A, p a = false) (hx : p x = true) :
    (A ++ x :: B).find? p = some x := by
  induction A with
  | nil => simp [hx]
  | cons a l ih =>
    have hpa : p a = false := hA a (by simp)
    simp only [List.cons_append, List.find?_cons, hpa]
    exact ih fun a' ha' => hA a' (by simp [ha'])

theorem find?_none_split {p : α → Bool} {A : List α}
    (hA : ∀ a ∈ A, p a = false) : A.find? p = none := by
  induction A with
  | nil => rfl
  | cons a l ih =>
    have hpa : p a = false := hA a (by simp)
    simp only [List.find?_cons, hpa]
    exact ih fun a' ha' => hA a' (by simp [ha'])

theorem lookupId_split {s : MIState Key Payload SKey}
    {A B : List (MRecord Key Payload)} {r : MRecord Key Payload}
    (hprim : s.primary = A ++ r :: B) (hA : ∀ x ∈ A, x.id ≠ r.id) :
    lookupId s r.id = some r := by
  unfold lookupId
  rw [hprim]
  exact find?_split (fun a ha => by simpa using hA a ha) (by simp)

/-! ### Characterizing `insertNew` -/

theorem insertNew_cases (cfg : MIConfig Key Payload SKey)
    (s : MIState Key Payload SKey) (k : Key) (v : Payload) :
    insertNew cfg s k v =
      (match addSecsAux k v s.nextId cfg.specs s.secs with
       | (ms, true) =>
         ({ primary := s.primary ++ [⟨s.nextId, k, v, false⟩], secs := ms,
            live := if cfg.tombs then s.live + 1 else s.live,
            nextId := s.nextId + 1 }, true)
       | (ms, false) =>
         ({ primary := s.primary, secs := ms, live := s.live,
            nextId := s.nextId + 1 }, false)) := by
  unfold insertNew AddSecs IncrementLive
  rcases h : addSecsAux k v s.nextId cfg.specs s.secs with ⟨ms, ok⟩
  cases ok <;> by_cases ht : cfg.tombs <;>
    simp [h, ht, List.dropLast_concat]

theorem insertNew_false_eq {cfg : MIConfig Key Payload SKey}
    {s : MIState Key Payload SKey} {k : Key} {v : Payload} (hInv : Inv cfg s)
    (h : (insertNew cfg s k v).2 = false) :
    (insertNew cfg s k v).1 = { s with nextId := s.nextId + 1 } := by
  rw [insertNew_cases] at h ⊢
  rcases haux : addSecsAux k v s.nextId cfg.specs s.secs with ⟨ms, ok⟩
  cases ok
  · have hrestore := addSecsAux_false_eq (k := k) (v := v)
      hInv.fresh_not_ref (by rw [haux])
    rw [haux] at hrestore
    obtain rfl : ms = s.secs := by simpa using hrestore
    simp only [haux]
  · rw [haux] at h
    simp at h

/-! ### Coherence across `DropSecs` and a successful `AddSecs` -/

theorem dropSecs_state {cfg : MIConfig Key Payload SKey}
    {s : MIState Key Payload SKey} (hInv : Inv cfg s)
    {A B : List (MRecord Key Payload)} {r : MRecord Key Payload}
    (hprim : s.primary = A ++ r :: B) (hlive : r.dead = false) :
    List.Forall₂ (fun spec m =>
      m.Perm (expectedSec spec A ++ expectedSec spec B) ∧
      (spec.uniq = true → (m.map Prod.fst).Nodup) ∧
      (∀ e ∈ m, e.2 ≠ r.id) ∧
      (spec.uniq = true → ∀ e ∈ m, e.1 ≠ spec.proj r.key r.val))
      cfg.specs (dropSecsAux r.key r.val r.id cfg.specs s.secs) := by
  rw [dropSecsAux_eq_zipWith hInv.secs_len]
  refine forall₂_zipWith_left hInv.coh ?_
  rintro spec m ⟨hperm, hnod⟩
  have hn' : ((A ++ r :: B).map (fun x => x.id)).Nodup := hprim ▸ hInv.ids_nodup
  have hperm' : m.Perm (expectedSec spec (A ++ r :: B)) := hprim ▸ hperm
  have hr : r ∈ s.primary := by rw [hprim]; simp
  refine ⟨eraseFirst_entry_perm hperm' hn' hlive, ?_, ?_, ?_⟩
  · intro hu
    exact (hnod hu).sublist (List.Sublist.map _ (eraseFirst_sublist _ _))
  · exact eraseFirst_entry_not_ref hperm hInv.ids_nodup hr hlive
  · intro hu
    exact eraseFirst_entry_fst hperm hInv.ids_nodup hr hlive (hnod hu)

theorem addSecs_success_coherent (k : Key) (v : Payload) (rid : Nat)
    {specs : List (SecSpec Key Payload SKey)} {ms : List (List (SKey × Nat))}
    {A B : List (MRecord Key Payload)}
    (h : List.Forall₂ (fun spec m =>
      m.Perm (expectedSec spec A ++ expectedSec spec B) ∧
      (spec.uniq = true → (m.map Prod.fst).Nodup)) specs ms)
    (hok : (addSecsAux k v rid specs ms).2 = true) :
    List.Forall₂ (fun spec m =>
      m.Perm (expectedSec spec A ++ (spec.proj k v, rid) :: expectedSec spec B) ∧
      (spec.uniq = true → (m.map Prod.fst).Nodup))
      specs (addSecsAux k v rid specs ms).1 := by
  rw [addSecsAux_true_eq k v rid h.length_eq hok]
  have hnc := addSecsAux_true_nocollision h.length_eq hok
  have hcomb := forall₂_and h hnc
  refine forall₂_zipWith_left hcomb ?_
  rintro spec m ⟨⟨hperm, hnod⟩, hnc'⟩
  constructor
  · exact append_entry_perm hperm
  · intro hu
    have h1 : (m ++ [(spec.proj k v, rid)]).map Prod.fst =
        m.map Prod.fst ++ [spec.proj k v] := by simp
    rw [h1]
    refine List.Nodup.append (hnod hu) (by simp) ?_
    intro a ha hb
    have hab : a = spec.proj k v := by simpa using hb
    obtain ⟨e, he, hef⟩ := List.mem_map.mp ha
    exact hnc' hu e he (by rw [hef, hab])

/-! ### `Inv` preservation: fresh insert and `emplace` -/

theorem Inv_insertNew {cfg : MIConfig Key Payload SKey}
    {s : MIState Key Payload SKey} {k : Key} {v : Payload} (hInv : Inv cfg s)
    (hkey : cfg.primUnique = true → ∀ r ∈ s.primary, r.key ≠ k) :
    Inv cfg (insertNew cfg s k v).1 := by
  rw [insertNew_cases]
  rcases haux : addSecsAux k v s.nextId cfg.specs s.secs with ⟨ms, ok⟩
  cases ok
  case false =>
    have hms : ms = s.secs := by
      have h2 := addSecsAux_false_eq (k := k) (v := v)
        hInv.fresh_not_ref (by rw [haux])
      rw [haux] at h2; simpa using h2
    subst hms
    refine ⟨hInv.ids_nodup, ?_, hInv.keys_nodup, hInv.no_dead, hInv.live_eq,
      hInv.coh⟩
    intro r hr
    exact Nat.lt_succ_of_lt (hInv.ids_lt r hr)
  case true =>
    have hfresh : s.nextId ∉ s.primary.map (fun r => r.id) := by
      intro hmem
      obtain ⟨r, hr, hid⟩ := List.mem_map.mp hmem
      exact absurd hid (Nat.ne_of_lt (hInv.ids_lt r hr))
    refine ⟨?_, ?_, ?_, ?_, ?_, ?_⟩
    · rw [List.map_append]
      refine List.Nodup.append hInv.ids_nodup (by simp) ?_
      intro a ha hb
      have hab : a = s.nextId := by simpa using hb
      rw [hab] at ha
      exact hfresh ha
    · intro r hr
      rcases List.mem_append.mp hr with h | h
      · exact Nat.lt_succ_of_lt (hInv.ids_lt r h)
      · have : r = ⟨s.nextId, k, v, false⟩ := by simpa using h
        rw [this]
        exact Nat.lt_succ_self _
    · intro hu
      rw [List.map_append]
      refine List.Nodup.append (hInv.keys_nodup hu) (by simp) ?_
      intro a ha hb
      have hab : a = k := by simpa using hb
      obtain ⟨r, hr, hrk⟩ := List.mem_map.mp ha
      exact hkey hu r hr (by rw [hrk, hab])
    · intro ht r hr
      rcases List.mem_append.mp hr with h | h
      · exact hInv.no_dead ht r h
      · have : r = ⟨s.nextId, k, v, false⟩ := by simpa using h
        rw [this]
    · intro ht
      simp only [ht, if_true]
      rw [hInv.live_eq ht]
      simp [List.filter_append]
    · have hbase : List.Forall₂ (fun spec m =>
          m.Perm (expectedSec spec s.primary ++
            expectedSec spec ([] : List (MRecord Key Payload))) ∧
          (spec.uniq = true → (m.map Prod.fst).Nodup)) cfg.specs s.secs := by
        refine forall₂_imp_mem hInv.coh ?_
        rintro spec m _ ⟨hperm, hnod⟩
        exact ⟨by simpa [expectedSec] using hperm, hnod⟩
      have hres := addSecs_success_coherent k v s.nextId hbase (by rw [haux])
      rw [haux] at hres
      unfold Coherent
      refine forall₂_imp_mem hres ?_
      rintro spec m _ ⟨hperm, hnod⟩
      refine ⟨?_, hnod⟩
      simpa [expectedSec_append, expectedSec] using hperm

/-! ### Characterizing the revive path of `emplace` -/

theorem AddSecs_eq (cfg : MIConfig Key Payload SKey)
    (s : MIState Key Payload SKey) (r : MRecord Key Payload) :
    AddSecs cfg s r =
      ({ s with secs := (addSecsAux r.key r.val r.id cfg.specs s.secs).1 },
        (addSecsAux r.key r.val r.id cfg.specs s.secs).2) := by
  unfold AddSecs
  rcases addSecsAux r.key r.val r.id cfg.specs s.secs with ⟨ms, ok⟩
  rfl

theorem setDead_split {s : MIState Key Payload SKey}
    {A B : List (MRecord Key Payload)} {r0 : MRecord Key Payload} {rid : Nat}
    {b : Bool} (hprim : s.primary = A ++ r0 :: B) (hr : r0.id = rid)
    (hA : ∀ x ∈ A, x.id ≠ rid) (hB : ∀ x ∈ B, x.id ≠ rid) :
    setDead s rid b = { s with primary := A ++ { r0 with dead := b } :: B } := by
  unfold setDead
  rw [hprim, map_upd_split hr hA hB]

theorem setPayload_split {s : MIState Key Payload SKey}
    {A B : List (MRecord Key Payload)} (r0 : MRecord Key Payload) {rid : Nat}
    {v : Payload} (hprim : s.primary = A ++ r0 :: B) (hr : r0.id = rid)
    (hA : ∀ x ∈ A, x.id ≠ rid) (hB : ∀ x ∈ B, x.id ≠ rid) :
    setPayload s rid v = { s with primary := A ++ { r0 with val := v } :: B } := by
  unfold setPayload
  rw [hprim, map_upd_split hr hA hB]

theorem emplace_revive_eq {cfg : MIConfig Key Payload SKey}
    {s : MIState Key Payload SKey} {k : Key} {v : Payload}
    (hpu : cfg.primUnique = true) (ht : cfg.tombs = true)
    {r0 : MRecord Key Payload}
    (hf : s.primary.find? (fun r => decide (r.key = k)) = some r0)
    (hd : r0.dead = true)
    {A B : List (MRecord Key Payload)} (hprim : s.primary = A ++ r0 :: B)
    (hA : ∀ x ∈ A, x.id ≠ r0.id) (hB : ∀ x ∈ B, x.id ≠ r0.id) :
    emplace cfg s k v =
      (match addSecsAux r0.key v r0.id cfg.specs s.secs with
       | (ms, true) =>
         ({ primary := A ++ ⟨r0.id, r0.key, v, false⟩ :: B, secs := ms,
            live := s.live + 1, nextId := s.nextId }, true)
       | (ms, false) =>
         ({ primary := A ++ ⟨r0.id, r0.key, v, true⟩ :: B, secs := ms,
            live := s.live, nextId := s.nextId }, false)) := by
  have hs1 : setPayload (setDead s r0.id false) r0.id v =
      { s with primary :=
          A ++ (⟨r0.id, r0.key, v, false⟩ : MRecord Key Payload) :: B } := by
    rw [setDead_split hprim rfl hA hB]
    rw [setPayload_split (A := A) (B := B) { r0 with dead := false }
      (by rfl) rfl hA hB]
  unfold emplace
  simp only [hpu, ht, hf, hd, if_true, hs1]
  rw [AddSecs_eq]
  rcases haux : addSecsAux r0.key v r0.id cfg.specs s.secs with ⟨ms, ok⟩
  cases ok
  case false =>
    have hset : setDead
        { primary := A ++ (⟨r0.id, r0.key, v, false⟩ : MRecord Key Payload) :: B,
          secs := ms, live := s.live, nextId := s.nextId } r0.id true =
        { primary := A ++ (⟨r0.id, r0.key, v, true⟩ : MRecord Key Payload) :: B,
          secs := ms, live := s.live, nextId := s.nextId } := by
      unfold setDead
      rw [map_upd_split (r := (⟨r0.id, r0.key, v, false⟩ : MRecord Key Payload))
        rfl hA hB]
    simp [hset]
  case true =>
    simp [IncrementLive, ht]

theorem expectedSec_dead_middle {spec : SecSpec Key Payload SKey}
    {A B : List (MRecord Key Payload)} {x y : MRecord Key Payload}
    (hx : x.dead = true) (hy : y.dead = true) :
    expectedSec spec (A ++ x :: B) = expectedSec spec (A ++ y :: B) := by
  rw [expectedSec_append, expectedSec_append, expectedSec_cons_dead _ hx,
    expectedSec_cons_dead _ hy]

theorem Inv_emplace {cfg : MIConfig Key Payload SKey}
    {s : MIState Key Payload SKey} (hInv : Inv cfg s) (k : Key) (v : Payload) :
    Inv cfg (emplace cfg s k v).1 := by
  by_cases hpu : cfg.primUnique = true
  case neg =>
    have hpu' : cfg.primUnique = false := by simpa using hpu
    unfold emplace
    rw [hpu']
    simp only [Bool.false_eq_true, if_false]
    exact Inv_insertNew hInv (fun h => absurd h (by simp [hpu']))
  case pos =>
    rcases hf : s.primary.find? (fun r => decide (r.key = k)) with _ | r0
    · have hkey : ∀ r ∈ s.primary, r.key ≠ k := by
        intro r hr
        have h2 := List.find?_eq_none.mp hf r hr
        simpa using h2
      unfold emplace
      simp only [hpu, if_true, hf]
      exact Inv_insertNew hInv (fun _ => hkey)
    · have hr0mem : r0 ∈ s.primary := List.mem_of_find?_eq_some hf
      by_cases ht : cfg.tombs = true
      · by_cases hd : r0.dead = true
        · obtain ⟨A, B, hprim, hA, hB⟩ := hInv.split hr0mem
          rw [emplace_revive_eq hpu ht hf hd hprim hA hB]
          have hbase : List.Forall₂ (fun spec m =>
              m.Perm (expectedSec spec A ++ expectedSec spec B) ∧
              (spec.uniq = true → (m.map Prod.fst).Nodup)) cfg.specs s.secs := by
            refine forall₂_imp_mem hInv.coh ?_
            rintro spec m _ ⟨hperm, hnod⟩
            refine ⟨?_, hnod⟩
            rw [hprim, expectedSec_append, expectedSec_cons_dead _ hd] at hperm
            exact hperm
          rcases haux : addSecsAux r0.key v r0.id cfg.specs s.secs with ⟨ms, ok⟩
          have hids : ∀ z : MRecord Key Payload, z.id = r0.id → z.key = r0.key →
              ((A ++ z :: B).map (fun r => r.id) =
                s.primary.map (fun r => r.id)) ∧
              ((A ++ z :: B).map (fun r => r.key) =
                s.primary.map (fun r => r.key)) := by
            intro z hzid hzkey
            rw [hprim]
            simp [hzid, hzkey]
          cases ok
          · have hms : ms = s.secs := by
              have h2 := addSecsAux_false_eq (k := r0.key) (v := v)
                (hInv.dead_not_ref hr0mem hd) (by rw [haux])
              rw [haux] at h2; simpa using h2
            subst hms
            obtain ⟨hid1, hkey1⟩ := hids ⟨r0.id, r0.key, v, true⟩ rfl rfl
            refine ⟨?_, ?_, ?_, ?_, ?_, ?_⟩
            · rw [hid1]; exact hInv.ids_nodup
            · intro r hr
              rcases List.mem_append.mp hr with h | h
              · exact hInv.ids_lt r (by rw [hprim]; exact List.mem_append.mpr (Or.inl h))
              · rcases List.mem_cons.mp h with rfl | h
                · exact hInv.ids_lt r0 hr0mem
                · exact hInv.ids_lt r
                    (by rw [hprim]
                        exact List.mem_append.mpr (Or.inr (List.mem_cons_of_mem _ h)))
            · intro hu; rw [hkey1]; exact hInv.keys_nodup hu
            · intro hft; rw [ht] at hft; cases hft
            · intro _
              rw [hInv.live_eq ht, hprim]
              simp [List.filter_append, List.filter_cons, hd]
            · refine forall₂_imp_mem hInv.coh ?_
              rintro spec m _ ⟨hperm, hnod⟩
              refine ⟨?_, hnod⟩
              have heq : expectedSec spec
                  (A ++ (⟨r0.id, r0.key, v, true⟩ : MRecord Key Payload) :: B) =
                  expectedSec spec s.primary := by
                rw [hprim]
                exact expectedSec_dead_middle rfl hd
              rw [heq]
              exact hperm
          · have hres := addSecs_success_coherent r0.key v r0.id hbase (by rw [haux])
            rw [haux] at hres
            obtain ⟨hid1, hkey1⟩ := hids ⟨r0.id, r0.key, v, false⟩ rfl rfl
            refine ⟨?_, ?_, ?_, ?_, ?_, ?_⟩
            · rw [hid1]; exact hInv.ids_nodup
            · intro r hr
              rcases List.mem_append.mp hr with h | h
              · exact hInv.ids_lt r (by rw [hprim]; exact List.mem_append.mpr (Or.inl h))
              · rcases List.mem_cons.mp h with rfl | h
                · exact hInv.ids_lt r0 hr0mem
                · exact hInv.ids_lt r
                    (by rw [hprim]
                        exact List.mem_append.mpr (Or.inr (List.mem_cons_of_mem _ h)))
            · intro hu; rw [hkey1]; exact hInv.keys_nodup hu
            · intro hft; rw [ht] at hft; cases hft
            · intro _
              rw [hInv.live_eq ht, hprim]
              simp [List.filter_append, List.filter_cons, hd]
              omega
            · refine forall₂_imp_mem hres ?_
              rintro spec m _ ⟨hperm, hnod⟩
              refine ⟨?_, hnod⟩
              rw [expectedSec_append, expectedSec_cons_live _ rfl]
              exact hperm
        · have hd' : r0.dead = false := by simpa using hd
          unfold emplace
          simp only [hpu, if_true, hf, ht, hd', Bool.false_eq_true, if_false]
          exact hInv
      · have ht' : cfg.tombs = false := by simpa using ht
        unfold emplace
        simp only [hpu, if_true, hf, ht', Bool.false_eq_true, if_false]
        exact hInv

/-! ### Characterizing `erase` -/

theorem eraseRec_eq {cfg : MIConfig Key Payload SKey}
    {s : MIState Key Payload SKey} {A B : List (MRecord Key Payload)}
    {r : MRecord Key Payload} (hprim : s.primary = A ++ r :: B)
    (hA : ∀ x ∈ A, x.id ≠ r.id) (hB : ∀ x ∈ B, x.id ≠ r.id) :
    eraseRec cfg s r =
      if cfg.tombs then
        { primary := A ++ { r with dead := true } :: B,
          secs := dropSecsAux r.key r.val r.id cfg.specs s.secs,
          live := s.live - 1, nextId := s.nextId }
      else
        { primary := A ++ B,
          secs := dropSecsAux r.key r.val r.id cfg.specs s.secs,
          live := s.live, nextId := s.nextId } := by
  unfold eraseRec DropSecs DecrementLive setDead
  dsimp only
  by_cases ht : cfg.tombs = true
  · rw [if_pos ht, if_pos ht, if_pos ht, hprim, map_upd_split rfl hA hB]
  · have ht' : cfg.tombs = false := by simpa using ht
    rw [ht']
    simp only [Bool.false_eq_true, if_false]
    have herase : eraseFirst (fun x => decide (x.id = r.id)) s.primary =
        A ++ B := by
      rw [hprim]
      exact eraseFirst_id_split rfl hA
    simp [herase]

theorem mem_primary_eraseRec {cfg : MIConfig Key Payload SKey}
    {s : MIState Key Payload SKey} {A B : List (MRecord Key Payload)}
    {r : MRecord Key Payload} (hprim : s.primary = A ++ r :: B)
    (hA : ∀ x ∈ A, x.id ≠ r.id) (hB : ∀ x ∈ B, x.id ≠ r.id)
    {x : MRecord Key Payload} (hx : x ∈ s.primary) (hne : x.id ≠ r.id) :
    x ∈ (eraseRec cfg s r).primary := by
  rw [eraseRec_eq hprim hA hB]
  have hxAB : x ∈ A ++ B := by
    rw [hprim] at hx
    rcases List.mem_append.mp hx with h | h
    · exact List.mem_append.mpr (Or.inl h)
    · rcases List.mem_cons.mp h with rfl | h
      · exact absurd rfl hne
      · exact List.mem_append.mpr (Or.inr h)
  by_cases ht : cfg.tombs = true
  · rw [if_pos ht]
    rcases List.mem_append.mp hxAB with h | h
    · exact List.mem_append.mpr (Or.inl h)
    · exact List.mem_append.mpr (Or.inr (List.mem_cons_of_mem _ h))
  · rw [if_neg ht]
    exact hxAB

theorem Inv_eraseRec {cfg : MIConfig Key Payload SKey}
    {s : MIState Key Payload SKey} {r : MRecord Key Payload}
    (hInv : Inv cfg s) (hr : r ∈ s.primary) (hlive : r.dead = false) :
    Inv cfg (eraseRec cfg s r) := by
  obtain ⟨A, B, hprim, hA, hB⟩ := hInv.split hr
  rw [eraseRec_eq hprim hA hB]
  have hdrop := dropSecs_state hInv hprim hlive
  have hmemAB : ∀ x ∈ A ++ B, x ∈ s.primary := by
    intro x hx
    rw [hprim]
    rcases List.mem_append.mp hx with h | h
    · exact List.mem_append.mpr (Or.inl h)
    · exact List.mem_append.mpr (Or.inr (List.mem_cons_of_mem _ h))
  by_cases ht : cfg.tombs = true
  · rw [if_pos ht]
    refine ⟨?_, ?_, ?_, ?_, ?_, ?_⟩
    · have h1 : (A ++ { r with dead := true } :: B).map (fun x => x.id) =
          s.primary.map (fun x => x.id) := by
        rw [hprim]; simp
      rw [h1]; exact hInv.ids_nodup
    · intro x hx
      rcases List.mem_append.mp hx with h | h
      · exact hInv.ids_lt x (hmemAB x (List.mem_append.mpr (Or.inl h)))
      · rcases List.mem_cons.mp h with rfl | h
        · exact hInv.ids_lt r hr
        · exact hInv.ids_lt x (hmemAB x (List.mem_append.mpr (Or.inr h)))
    · intro hu
      have h1 : (A ++ { r with dead := true } :: B).map (fun x => x.key) =
          s.primary.map (fun x => x.key) := by
        rw [hprim]; simp
      rw [h1]; exact hInv.keys_nodup hu
    · intro hft; rw [ht] at hft; cases hft
    · intro _
      rw [hInv.live_eq ht, hprim]
      simp [List.filter_append, List.filter_cons, hlive]
    · refine forall₂_imp_mem hdrop ?_
      rintro spec m _ ⟨hperm, hnod, _, _⟩
      refine ⟨?_, hnod⟩
      rw [expectedSec_append, expectedSec_cons_dead _ rfl]
      exact hperm
  · rw [if_neg ht]
    have hsub : (A ++ B).Sublist (A ++ r :: B) :=
      (List.sublist_cons_self r B).append_left A
    refine ⟨?_, ?_, ?_, ?_, ?_, ?_⟩
    · exact hInv.ids_nodup.sublist (by rw [hprim]; exact hsub.map _)
    · intro x hx
      exact hInv.ids_lt x (hmemAB x hx)
    · intro hu
      exact (hInv.keys_nodup hu).sublist (by rw [hprim]; exact hsub.map _)
    · intro hft x hx
      exact hInv.no_dead hft x (hmemAB x hx)
    · intro hft; rw [hft] at ht; exact absurd rfl ht
    · refine forall₂_imp_mem hdrop ?_
      rintro spec m _ ⟨hperm, hnod, _, _⟩
      refine ⟨?_, hnod⟩
      rw [expectedSec_append]
      exact hperm

theorem Inv_eraseIter {cfg : MIConfig Key Payload SKey}
    {s : MIState Key Payload SKey} (hInv : Inv cfg s) (rid : Nat) :
    Inv cfg (eraseIter cfg s rid) := by
  unfold eraseIter
  rcases hl : lookupId s rid with _ | r
  · exact hInv
  · have hr : r ∈ s.primary := List.mem_of_find?_eq_some hl
    by_cases hd : r.dead = true
    · simp only [hd, if_true]; exact hInv
    · have hd' : r.dead = false := by simpa using hd
      simp only [hd', Bool.false_eq_true, if_false]
      exact Inv_eraseRec hInv hr hd'

theorem Inv_eraseRec_fold {cfg : MIConfig Key Payload SKey} :
    ∀ {ts : List (MRecord Key Payload)} {s : MIState Key Payload SKey},
    Inv cfg s → (∀ r ∈ ts, r ∈ s.primary ∧ r.dead = false) →
    (ts.map (fun r => r.id)).Nodup →
    Inv cfg (ts.foldl (fun acc r => eraseRec cfg acc r) s) := by
  intro ts
  induction ts with
  | nil => intro s hInv _ _; exact hInv
  | cons r ts ih =>
    intro s hInv hts hnd
    obtain ⟨hr, hlive⟩ := hts r (by simp)
    obtain ⟨A, B, hprim, hA, hB⟩ := hInv.split hr
    rw [List.foldl_cons]
    refine ih (Inv_eraseRec hInv hr hlive) ?_ (by simpa using hnd.of_cons)
    intro x hx
    obtain ⟨hxmem, hxlive⟩ := hts x (List.mem_cons_of_mem _ hx)
    have h2 : (∀ y ∈ ts, ¬y.id = r.id) ∧
        (ts.map (fun z => z.id)).Nodup := by simpa using hnd
    have hne : x.id ≠ r.id := h2.1 x hx
    exact ⟨mem_primary_eraseRec hprim hA hB hxmem hne, hxlive⟩

theorem Inv_eraseKey {cfg : MIConfig Key Payload SKey}
    {s : MIState Key Payload SKey} (hInv : Inv cfg s) (k : Key) :
    Inv cfg (eraseKey cfg s k).1 := by
  unfold eraseKey
  by_cases hpu : cfg.primUnique = true
  · simp only [hpu, if_true]
    rcases hts : s.primary.filter (fun r => decide (r.key = k) && !r.dead)
      with _ | ⟨r, rest⟩
    · rw [hts]
      exact hInv
    · rw [hts]
      have hrmem : r ∈ s.primary.filter (fun x => decide (x.key = k) && !x.dead) := by
        rw [hts]; simp
      have h2 := List.mem_filter.mp hrmem
      have hlive : r.dead = false := by
        have h3 := h2.2
        simp only [Bool.and_eq_true] at h3
        simpa using h3.2
      exact Inv_eraseRec hInv h2.1 hlive
  · have hpu' : cfg.primUnique = false := by simpa using hpu
    simp only [hpu', Bool.false_eq_true, if_false]
    refine Inv_eraseRec_fold hInv ?_ ?_
    · intro r hr
      have h2 := List.mem_filter.mp hr
      have hlive : r.dead = false := by
        have := h2.2
        simp only [Bool.and_eq_true] at this
        simpa using this.2
      exact ⟨h2.1, hlive⟩
    · exact hInv.ids_nodup.sublist ((List.filter_sublist _).map _)

/-! ### Characterizing `UpdateCore` -/

theorem setDead_noop {s : MIState Key Payload SKey}
    {A B : List (MRecord Key Payload)} {r : MRecord Key Payload}
    (hprim : s.primary = A ++ r :: B) (hA : ∀ x ∈ A, x.id ≠ r.id)
    (hB : ∀ x ∈ B, x.id ≠ r.id) {b : Bool} (hb : r.dead = b) :
    setDead s r.id b = s := by
  unfold setDead
  rw [hprim, map_upd_split rfl hA hB]
  have h1 : { r with dead := b } = r := by
    cases r
    simp only [MRecord.mk.injEq, true_and]
    simp at hb
    exact hb.symm
  rw [h1, ← hprim]

theorem UpdateCore_live_eq {cfg : MIConfig Key Payload SKey}
    {s : MIState Key Payload SKey} {A B : List (MRecord Key Payload)}
    {r : MRecord Key Payload} (hprim : s.primary = A ++ r :: B)
    (hA : ∀ x ∈ A, x.id ≠ r.id) (hB : ∀ x ∈ B, x.id ≠ r.id)
    (hof : cfg.tombs = true → r.dead = false) (mf : Payload → Payload) :
    UpdateCore cfg s r.id mf =
      (match addSecsAux r.key (mf r.val) r.id cfg.specs
          (dropSecsAux r.key r.val r.id cfg.specs s.secs) with
       | (ms, true) =>
         ({ primary := A ++ { r with val := mf r.val } :: B, secs := ms,
            live := s.live, nextId := s.nextId }, true)
       | (ms, false) =>
         ({ primary := A ++ r :: B,
            secs := (addSecsAux r.key r.val r.id cfg.specs ms).1,
            live := s.live, nextId := s.nextId }, false)) := by
  have hofx : (cfg.tombs && r.dead) = false := by
    cases h : cfg.tombs
    · simp
    · simp [hof h]
  have hs1 : (if cfg.tombs = true then setDead s r.id false else s) = s := by
    cases h : cfg.tombs
    · simp
    · simp only [if_true]
      exact setDead_noop hprim hA hB (hof h)
  unfold UpdateCore
  rw [lookupId_split hprim hA]
  dsimp only
  rw [hofx, hs1]
  simp only [Bool.false_eq_true, if_false]
  have hdropstate : DropSecs cfg s ⟨r.id, r.key, r.val, false⟩ =
      { s with secs := dropSecsAux r.key r.val r.id cfg.specs s.secs } := by
    unfold DropSecs
    rfl
  rw [hdropstate]
  have hset3 : setPayload
      { s with secs := dropSecsAux r.key r.val r.id cfg.specs s.secs }
      r.id (mf r.val) =
      { primary := A ++ { r with val := mf r.val } :: B,
        secs := dropSecsAux r.key r.val r.id cfg.specs s.secs,
        live := s.live, nextId := s.nextId } := by
    unfold setPayload
    dsimp only
    rw [hprim, map_upd_split rfl hA hB]
  rw [hset3, AddSecs_eq]
  dsimp only
  rcases haux : addSecsAux r.key (mf r.val) r.id cfg.specs
    (dropSecsAux r.key r.val r.id cfg.specs s.secs) with ⟨ms, ok⟩
  cases ok
  · dsimp only
    have hset5 : setPayload
        { primary := A ++ { r with val := mf r.val } :: B, secs := ms,
          live := s.live, nextId := s.nextId } r.id r.val =
        (⟨A ++ r :: B, ms, s.live, s.nextId⟩ : MIState Key Payload SKey) := by
      unfold setPayload
      dsimp only
      rw [map_upd_split (r := { r with val := mf r.val }) rfl hA hB]
    rw [hset5]
    have hset6 : (if cfg.tombs = true then
        setDead (⟨A ++ r :: B, ms, s.live, s.nextId⟩ : MIState Key Payload SKey)
          r.id r.dead
        else (⟨A ++ r :: B, ms, s.live, s.nextId⟩ : MIState Key Payload SKey)) =
        (⟨A ++ r :: B, ms, s.live, s.nextId⟩ : MIState Key Payload SKey) := by
      cases h : cfg.tombs
      · simp
      · simp only [if_true]
        exact setDead_noop
          (s := (⟨A ++ r :: B, ms, s.live, s.nextId⟩ : MIState Key Payload SKey))
          rfl hA hB rfl
    rw [hset6, AddSecs_eq]
  · dsimp only

theorem UpdateCore_dead_eq {cfg : MIConfig Key Payload SKey}
    {s : MIState Key Payload SKey} {A B : List (MRecord Key Payload)}
    {r : MRecord Key Payload} (hprim : s.primary = A ++ r :: B)
    (hA : ∀ x ∈ A, x.id ≠ r.id) (hB : ∀ x ∈ B, x.id ≠ r.id)
    (ht : cfg.tombs = true) (hd : r.dead = true) (mf : Payload → Payload) :
    UpdateCore cfg s r.id mf =
      (match addSecsAux r.key (mf r.val) r.id cfg.specs s.secs with
       | (ms, true) =>
         ({ primary := A ++ ⟨r.id, r.key, mf r.val, false⟩ :: B,
            secs := ms, live := s.live + 1, nextId := s.nextId }, true)
       | (ms, false) =>
         ({ primary := A ++ r :: B, secs := ms, live := s.live,
            nextId := s.nextId }, false)) := by
  have hofx : (cfg.tombs && r.dead) = true := by simp [ht, hd]
  unfold UpdateCore
  rw [lookupId_split hprim hA]
  dsimp only
  rw [hofx, ht]
  simp only [if_true]
  have hset1 : setDead s r.id false =
      (⟨A ++ { r with dead := false } :: B, s.secs, s.live, s.nextId⟩ :
        MIState Key Payload SKey) := by
    unfold setDead
    rw [hprim, map_upd_split rfl hA hB]
  rw [hset1]
  have hset3 : setPayload
      (⟨A ++ { r with dead := false } :: B, s.secs, s.live, s.nextId⟩ :
        MIState Key Payload SKey) r.id (mf r.val) =
      (⟨A ++ (⟨r.id, r.key, mf r.val, false⟩ : MRecord Key Payload) :: B,
        s.secs, s.live, s.nextId⟩ : MIState Key Payload SKey) := by
    unfold setPayload
    dsimp only
    rw [map_upd_split (r := { r with dead := false }) rfl hA hB]
  rw [hset3, AddSecs_eq]
  dsimp only
  rcases haux : addSecsAux r.key (mf r.val) r.id cfg.specs s.secs with ⟨ms, ok⟩
  cases ok
  · dsimp only
    have hset5 : setPayload
        { primary := A ++ (⟨r.id, r.key, mf r.val, false⟩ :
            MRecord Key Payload) :: B,
          secs := ms, live := s.live, nextId := s.nextId } r.id r.val =
        (⟨A ++ { r with dead := false } :: B, ms, s.live, s.nextId⟩ :
          MIState Key Payload SKey) := by
      unfold setPayload
      dsimp only
      rw [map_upd_split
        (r := (⟨r.id, r.key, mf r.val, false⟩ : MRecord Key Payload)) rfl hA hB]
    rw [hset5]
    have hset6 : setDead
        (⟨A ++ { r with dead := false } :: B, ms, s.live, s.nextId⟩ :
          MIState Key Payload SKey) r.id r.dead =
        (⟨A ++ r :: B, ms, s.live, s.nextId⟩ : MIState Key Payload SKey) := by
      unfold setDead
      dsimp only
      rw [map_upd_split (r := { r with dead := false }) rfl hA hB, hd]
      have h1 : ({ { r with dead := false } with dead := true } :
          MRecord Key Payload) = r := by
        cases r
        simp at hd
        rw [hd]
      rw [h1]
    rw [hset6]
  · dsimp only
    simp [IncrementLive, ht]

/-! ### `Inv` preservation for `UpdateCore`, `Replace`, `clear` -/

theorem forall₂_right_trans {β γ : Type} {P : β → γ → Prop} {Q : γ → γ → Prop}
    {as : List β} {bs cs : List γ}
    (h1 : List.Forall₂ P as bs) (h2 : List.Forall₂ P as cs)
    (himp : ∀ a b c, P a b → P a c → Q b c) :
    List.Forall₂ Q bs cs := by
  induction h1 generalizing cs with
  | nil =>
    cases h2
    exact List.Forall₂.nil
  | @cons a b as' bs' hP hrest ih =>
    cases h2 with
    | cons hP2 hrest2 => exact List.Forall₂.cons (himp _ _ _ hP hP2) (ih hrest2)

theorem Inv_UpdateCore {cfg : MIConfig Key Payload SKey}
    {s : MIState Key Payload SKey} (hInv : Inv cfg s) (rid : Nat)
    (mf : Payload → Payload) : Inv cfg (UpdateCore cfg s rid mf).1 := by
  rcases hl : lookupId s rid with _ | r
  · unfold UpdateCore
    rw [hl]
    exact hInv
  · have hr : r ∈ s.primary := List.mem_of_find?_eq_some hl
    have hid : r.id = rid := by
      have h2 := List.find?_some hl
      simpa using h2
    subst hid
    obtain ⟨A, B, hprim, hA, hB⟩ := hInv.split hr
    by_cases hcase : cfg.tombs = true ∧ r.dead = true
    · obtain ⟨ht, hd⟩ := hcase
      rw [UpdateCore_dead_eq hprim hA hB ht hd mf]
      have hbase : List.Forall₂ (fun spec m =>
          m.Perm (expectedSec spec A ++ expectedSec spec B) ∧
          (spec.uniq = true → (m.map Prod.fst).Nodup)) cfg.specs s.secs := by
        refine forall₂_imp_mem hInv.coh ?_
        rintro spec m _ ⟨hperm, hnod⟩
        refine ⟨?_, hnod⟩
        rw [hprim, expectedSec_append, expectedSec_cons_dead _ hd] at hperm
        exact hperm
      rcases haux : addSecsAux r.key (mf r.val) r.id cfg.specs s.secs
        with ⟨ms, ok⟩
      cases ok
      · have hms : ms = s.secs := by
          have h2 := addSecsAux_false_eq (k := r.key) (v := mf r.val)
            (hInv.dead_not_ref hr hd) (by rw [haux])
          rw [haux] at h2; simpa using h2
        subst hms
        refine ⟨?_, ?_, ?_, ?_, ?_, ?_⟩
        · rw [show (A ++ r :: B) = s.primary from hprim.symm]
          exact hInv.ids_nodup
        · intro x hx
          rw [show (A ++ r :: B) = s.primary from hprim.symm] at hx
          exact hInv.ids_lt x hx
        · intro hu
          rw [show (A ++ r :: B) = s.primary from hprim.symm]
          exact hInv.keys_nodup hu
        · intro hft; rw [ht] at hft; cases hft
        · intro _
          rw [hInv.live_eq ht, hprim]
        · refine forall₂_imp_mem hInv.coh ?_
          rintro spec m _ ⟨hperm, hnod⟩
          refine ⟨?_, hnod⟩
          rw [show (A ++ r :: B) = s.primary from hprim.symm]
          exact hperm
      · have hres := addSecs_success_coherent r.key (mf r.val) r.id hbase (by rw [haux])
        rw [haux] at hres
        refine ⟨?_, ?_, ?_, ?_, ?_, ?_⟩
        · have h1 : (A ++ (⟨r.id, r.key, mf r.val, false⟩ :
              MRecord Key Payload) :: B).map (fun x => x.id) =
              s.primary.map (fun x => x.id) := by
            rw [hprim]; simp
          rw [h1]; exact hInv.ids_nodup
        · intro x hx
          rcases List.mem_append.mp hx with h | h
          · exact hInv.ids_lt x (by rw [hprim]; exact List.mem_append.mpr (Or.inl h))
          · rcases List.mem_cons.mp h with rfl | h
            · exact hInv.ids_lt r hr
            · exact hInv.ids_lt x
                (by rw [hprim]
                    exact List.mem_append.mpr (Or.inr (List.mem_cons_of_mem _ h)))
        · intro hu
          have h1 : (A ++ (⟨r.id, r.key, mf r.val, false⟩ :
              MRecord Key Payload) :: B).map (fun x => x.key) =
              s.primary.map (fun x => x.key) := by
            rw [hprim]; simp
          rw [h1]; exact hInv.keys_nodup hu
        · intro hft; rw [ht] at hft; cases hft
        · intro _
          rw [hInv.live_eq ht, hprim]
          simp [List.filter_append, List.filter_cons, hd]
          omega
        · refine forall₂_imp_mem hres ?_
          rintro spec m _ ⟨hperm, hnod⟩
          refine ⟨?_, hnod⟩
          rw [expectedSec_append, expectedSec_cons_live _ rfl]
          exact hperm
    · have hof : cfg.tombs = true → r.dead = false := by
        intro ht
        by_cases hd : r.dead = true
        · exact absurd ⟨ht, hd⟩ hcase
        · simpa using hd
      have hlive : r.dead = false := by
        by_cases ht : cfg.tombs = true
        · exact hof ht
        · exact hInv.no_dead (by simpa using ht) r hr
      rw [UpdateCore_live_eq hprim hA hB hof mf]
      have hdrop := dropSecs_state hInv hprim hlive
      rcases haux : addSecsAux r.key (mf r.val) r.id cfg.specs
        (dropSecsAux r.key r.val r.id cfg.specs s.secs) with ⟨ms, ok⟩
      cases ok
      · have hdfresh : ∀ m ∈ dropSecsAux r.key r.val r.id cfg.specs s.secs,
            ∀ e ∈ m, e.2 ≠ r.id := by
          intro m hm e he
          obtain ⟨spec, _, _, _, hnr, _⟩ := forall₂_mem_right hdrop hm
          exact hnr e he
        have hms : ms = dropSecsAux r.key r.val r.id cfg.specs s.secs := by
          have h2 := addSecsAux_false_eq (k := r.key) (v := mf r.val)
            hdfresh (by rw [haux])
          rw [haux] at h2; simpa using h2
        subst hms
        have hreadd : (addSecsAux r.key r.val r.id cfg.specs
            (dropSecsAux r.key r.val r.id cfg.specs s.secs)).2 = true := by
          apply addSecsAux_true_of_nocollision
          refine forall₂_imp_mem hdrop ?_
          rintro spec m _ ⟨_, _, _, hfst⟩
          exact hfst
        have hres := addSecs_success_coherent r.key r.val r.id (A := A) (B := B)
          (forall₂_imp_mem hdrop (fun spec m _ hP => ⟨hP.1, hP.2.1⟩)) hreadd
        refine ⟨?_, ?_, ?_, ?_, ?_, ?_⟩
        · rw [show (A ++ r :: B) = s.primary from hprim.symm]
          exact hInv.ids_nodup
        · intro x hx
          rw [show (A ++ r :: B) = s.primary from hprim.symm] at hx
          exact hInv.ids_lt x hx
        · intro hu
          rw [show (A ++ r :: B) = s.primary from hprim.symm]
          exact hInv.keys_nodup hu
        · intro hft x hx
          rw [show (A ++ r :: B) = s.primary from hprim.symm] at hx
          exact hInv.no_dead hft x hx
        · intro ht
          rw [hInv.live_eq ht, hprim]
        · refine forall₂_imp_mem hres ?_
          rintro spec m _ ⟨hperm, hnod⟩
          refine ⟨?_, hnod⟩
          rw [expectedSec_append, expectedSec_cons_live _ hlive]
          exact hperm
      · have hres := addSecs_success_coherent r.key (mf r.val) r.id (A := A)
          (B := B)
          (forall₂_imp_mem hdrop (fun spec m _ hP => ⟨hP.1, hP.2.1⟩))
          (by rw [haux])
        rw [haux] at hres
        refine ⟨?_, ?_, ?_, ?_, ?_, ?_⟩
        · have h1 : (A ++ ({ r with val := mf r.val } :
              MRecord Key Payload) :: B).map (fun x => x.id) =
              s.primary.map (fun x => x.id) := by
            rw [hprim]; simp
          rw [h1]; exact hInv.ids_nodup
        · intro x hx
          rcases List.mem_append.mp hx with h | h
          · exact hInv.ids_lt x (by rw [hprim]; exact List.mem_append.mpr (Or.inl h))
          · rcases List.mem_cons.mp h with rfl | h
            · exact hInv.ids_lt r hr
            · exact hInv.ids_lt x
                (by rw [hprim]
                    exact List.mem_append.mpr (Or.inr (List.mem_cons_of_mem _ h)))
        · intro hu
          have h1 : (A ++ ({ r with val := mf r.val } :
              MRecord Key Payload) :: B).map (fun x => x.key) =
              s.primary.map (fun x => x.key) := by
            rw [hprim]; simp
          rw [h1]; exact hInv.keys_nodup hu
        · intro hft x hx
          rcases List.mem_append.mp hx with h | h
          · exact hInv.no_dead hft x (by rw [hprim]; exact List.mem_append.mpr (Or.inl h))
          · rcases List.mem_cons.mp h with rfl | h
            · exact hlive
            · exact hInv.no_dead hft x
                (by rw [hprim]
                    exact List.mem_append.mpr (Or.inr (List.mem_cons_of_mem _ h)))
        · intro ht
          rw [hInv.live_eq ht, hprim]
          simp [List.filter_append, List.filter_cons, hlive]
        · refine forall₂_imp_mem hres ?_
          rintro spec m _ ⟨hperm, hnod⟩
          refine ⟨?_, hnod⟩
          rw [expectedSec_append,
            expectedSec_cons_live (r := { r with val := mf r.val }) B hlive]
          exact hperm

theorem Inv_Replace {cfg : MIConfig Key Payload SKey}
    {s : MIState Key Payload SKey} (hInv : Inv cfg s) (rid : Nat)
    (v : Payload) : Inv cfg (Replace cfg s rid v).1 := by
  unfold Replace
  rcases hl : lookupId s rid with _ | r
  · exact hInv
  · dsimp only
    by_cases hc : (!(cfg.tombs && r.dead) && decide (r.val = v)) = true
    · rw [if_pos hc]
      exact hInv
    · rw [if_neg hc]
      exact Inv_UpdateCore hInv rid _

theorem Inv_clear {cfg : MIConfig Key Payload SKey}
    {s : MIState Key Payload SKey} (hInv : Inv cfg s) :
    Inv cfg (clearOp cfg s) := by
  refine ⟨by simp [clearOp], by simp [clearOp], by simp [clearOp],
    by simp [clearOp], by simp [clearOp], ?_⟩
  unfold Coherent clearOp
  refine forall₂_map_right_const ?_ ?_
  · exact hInv.secs_len
  · intro spec _
    simp [expectedSec]

/-! ### The rebuild loop of `compact` and the invalidating copy paths -/

theorem buildFrom_spec {cfg : MIConfig Key Payload SKey} :
    ∀ (ps : List (Key × Payload)) (acc : MIState Key Payload SKey),
    Inv cfg acc →
    (∀ r ∈ acc.primary, r.dead = false) →
    (cfg.primUnique = true →
      ((acc.primary.map (fun r => r.key)) ++ ps.map Prod.fst).Nodup) →
    (∀ spec ∈ cfg.specs, spec.uniq = true →
      ((acc.primary.map (fun r => spec.proj r.key r.val)) ++
        ps.map (fun p => spec.proj p.1 p.2)).Nodup) →
    Inv cfg (buildFrom cfg ps acc) ∧
    (∀ r ∈ (buildFrom cfg ps acc).primary, r.dead = false) ∧
    (buildFrom cfg ps acc).primary.map (fun r => (r.key, r.val)) =
      acc.primary.map (fun r => (r.key, r.val)) ++ ps := by
  intro ps
  induction ps with
  | nil =>
    intro acc hInv hlive hkeys hsecs
    exact ⟨hInv, hlive, by simp [buildFrom]⟩
  | cons p ps ih =>
    intro acc hInv hlive hkeys hsecs
    have hknotin : cfg.primUnique = true → ∀ r ∈ acc.primary, r.key ≠ p.1 := by
      intro hpu r hr heq
      have hnd := hkeys hpu
      obtain ⟨_, _, hdisj⟩ := List.nodup_append.mp hnd
      exact hdisj (List.mem_map_of_mem _ hr) (by simp [heq])
    have hstep : emplace cfg acc p.1 p.2 = insertNew cfg acc p.1 p.2 := by
      unfold emplace
      by_cases hpu : cfg.primUnique = true
      · have hfind : acc.primary.find? (fun r => decide (r.key = p.1)) = none := by
          apply find?_none_split
          intro r hr
          simpa using hknotin hpu r hr
        rw [hpu, hfind]
        simp
      · have hpu' : cfg.primUnique = false := by simpa using hpu
        rw [hpu']
        simp
    have hok : (addSecsAux p.1 p.2 acc.nextId cfg.specs acc.secs).2 = true := by
      apply addSecsAux_true_of_nocollision
      refine forall₂_imp_mem hInv.coh ?_
      rintro spec m hspec ⟨hperm, hnod⟩ hu e he heq
      obtain ⟨r, hr, hrd, hre⟩ := mem_expectedSec.mp (hperm.subset he)
      have hnd := hsecs spec hspec hu
      obtain ⟨_, _, hdisj⟩ := List.nodup_append.mp hnd
      refine hdisj (a := spec.proj r.key r.val)
        (List.mem_map_of_mem _ hr) ?_
      have h2 : spec.proj r.key r.val = spec.proj p.1 p.2 := by
        rw [← heq, hre]
      simp [h2]
    rcases haux : addSecsAux p.1 p.2 acc.nextId cfg.specs acc.secs with ⟨ms, ok2⟩
    rw [haux] at hok
    simp only at hok
    subst hok
    have hs' : (emplace cfg acc p.1 p.2).1 =
        (⟨acc.primary ++ [⟨acc.nextId, p.1, p.2, false⟩], ms,
          if cfg.tombs = true then acc.live + 1 else acc.live,
          acc.nextId + 1⟩ : MIState Key Payload SKey) := by
      rw [hstep, insertNew_cases, haux]
    have hbuild : buildFrom cfg (p :: ps) acc =
        buildFrom cfg ps (emplace cfg acc p.1 p.2).1 := by
      simp [buildFrom]
    rw [hbuild, hs']
    have hInv' : Inv cfg (⟨acc.primary ++ [⟨acc.nextId, p.1, p.2, false⟩], ms,
        if cfg.tombs = true then acc.live + 1 else acc.live,
        acc.nextId + 1⟩ : MIState Key Payload SKey) := by
      rw [← hs']
      exact Inv_emplace hInv p.1 p.2
    obtain ⟨hi, hl, hp⟩ := ih _ hInv'
      (by
        intro r hr
        rcases List.mem_append.mp hr with h | h
        · exact hlive r h
        · have h2 : r = ⟨acc.nextId, p.1, p.2, false⟩ := by simpa using h
          rw [h2])
      (by
        intro hpu
        have h2 := hkeys hpu
        simpa [List.append_assoc] using h2)
      (by
        intro spec hspec hu
        have h2 := hsecs spec hspec hu
        simpa [List.append_assoc] using h2)
    refine ⟨hi, hl, ?_⟩
    rw [hp]
    simp

theorem livePairs_eq_filter_live {cfg : MIConfig Key Payload SKey}
    {s : MIState Key Payload SKey} (hInv : Inv cfg s) :
    livePairs cfg s =
      (s.primary.filter (fun r => !r.dead)).map (fun r => (r.key, r.val)) := by
  unfold livePairs
  congr 1
  apply List.filter_congr
  intro r hr
  cases ht : cfg.tombs
  · simp [hInv.no_dead ht r hr]
  · simp [ht]

theorem compact_spec {cfg : MIConfig Key Payload SKey}
    {s : MIState Key Payload SKey} (hInv : Inv cfg s) :
    Inv cfg (compact cfg s) ∧
    (∀ r ∈ (compact cfg s).primary, r.dead = false) ∧
    (compact cfg s).primary.map (fun r => (r.key, r.val)) = livePairs cfg s := by
  have hInv0 : Inv cfg (emptyState cfg) := by
    refine ⟨by simp [emptyState], by simp [emptyState], by simp [emptyState],
      by simp [emptyState], by simp [emptyState], ?_⟩
    unfold Coherent emptyState
    refine forall₂_map_right_const rfl ?_
    intro spec _
    simp [expectedSec]
  have hlp := livePairs_eq_filter_live hInv
  obtain ⟨hi, hl, hp⟩ := buildFrom_spec (livePairs cfg s) (emptyState cfg) hInv0
    (by simp [emptyState])
    (by
      intro hpu
      simp only [emptyState, List.map_nil, List.nil_append]
      rw [hlp, List.map_map]
      have h2 : ((s.primary.filter (fun r => !r.dead)).map
          (Prod.fst ∘ fun r => (r.key, r.val))) =
          (s.primary.filter (fun r => !r.dead)).map (fun r => r.key) := by
        simp [Function.comp]
      rw [h2]
      exact (hInv.keys_nodup hpu).sublist ((List.filter_sublist _).map _))
    (by
      intro spec hspec hu
      simp only [emptyState, List.map_nil, List.nil_append]
      rw [hlp, List.map_map]
      have h2 : ((s.primary.filter (fun r => !r.dead)).map
          ((fun p => spec.proj p.1 p.2) ∘ fun r => (r.key, r.val))) =
          (expectedSec spec s.primary).map Prod.fst := by
        simp [expectedSec, List.map_map, Function.comp]
      rw [h2]
      obtain ⟨m, _, hperm, hnod⟩ := forall₂_mem_left hInv.coh hspec
      exact ((hperm.map Prod.fst).nodup_iff).mp (hnod hu))
  refine ⟨hi, hl, ?_⟩
  have h3 : ((emptyState cfg : MIState Key Payload SKey)).primary.map
      (fun r => (r.key, r.val)) = [] := rfl
  rw [show compact cfg s = buildFrom cfg (livePairs cfg s) (emptyState cfg)
    from rfl, hp, h3, List.nil_append]

/-! ### Reachability closure -/

theorem Inv_empty (cfg : MIConfig Key Payload SKey) : Inv cfg (emptyState cfg) := by
  refine ⟨by simp [emptyState], by simp [emptyState], by simp [emptyState],
    by simp [emptyState], by simp [emptyState], ?_⟩
  unfold Coherent emptyState
  refine forall₂_map_right_const rfl ?_
  intro spec _
  simp [expectedSec]

theorem Inv_step {cfg : MIConfig Key Payload SKey}
    {s s' : MIState Key Payload SKey} (hInv : Inv cfg s)
    (h : Step cfg s s') : Inv cfg s' := by
  cases h with
  | stepEmplace k v => exact Inv_emplace hInv k v
  | stepEraseIter rid => exact Inv_eraseIter hInv rid
  | stepEraseKey k => exact Inv_eraseKey hInv k
  | stepModify rid mf => exact Inv_UpdateCore hInv rid mf
  | stepReplace rid v => exact Inv_Replace hInv rid v
  | stepClear => exact Inv_clear hInv
  | stepCompact => exact (compact_spec hInv).1

theorem Inv_reachable {cfg : MIConfig Key Payload SKey}
    {s : MIState Key Payload SKey} (h : Reachable cfg s) : Inv cfg s := by
  induction h with
  | refl => exact Inv_empty cfg
  | tail hr hs ih => exact Inv_step ih hs

/-! ### Counting the entries of one record in a secondary -/

theorem countP_id_eq_one {l : List (MRecord Key Payload)} {rid : Nat}
    (hn : (l.map (fun x => x.id)).Nodup) {r : MRecord Key Payload}
    (hr : r ∈ l) (hid : r.id = rid) :
    l.countP (fun x => decide (x.id = rid)) = 1 := by
  induction l with
  | nil => cases hr
  | cons b l ih =>
    have hn2 : (∀ x ∈ l, ¬x.id = b.id) ∧
        (l.map (fun x => x.id)).Nodup := by simpa using hn
    by_cases hb : b.id = rid
    · rw [List.countP_cons_of_pos _ _ (by simpa using hb)]
      have h0 : l.countP (fun x => decide (x.id = rid)) = 0 := by
        rw [List.countP_eq_zero]
        intro x hx
        simp only [decide_eq_true_eq]
        intro heq
        exact hn2.1 x hx (by rw [heq, ← hb])
      rw [h0]
    · rw [List.countP_cons_of_neg _ _ (by simpa using hb)]
      rcases List.mem_cons.mp hr with rfl | hr'
      · exact absurd hid hb
      · exact ih (by simpa using hn2.2) hr'

theorem expected_countP_one {spec : SecSpec Key Payload SKey}
    {prim : List (MRecord Key Payload)} {r : MRecord Key Payload}
    (hn : (prim.map (fun x => x.id)).Nodup) (hr : r ∈ prim)
    (hlive : r.dead = false) :
    (expectedSec spec prim).countP
      (fun e => decide (e.1 = spec.proj r.key r.val) && decide (e.2 = r.id))
      = 1 := by
  have hcongr : ∀ e ∈ expectedSec spec prim,
      ((decide (e.1 = spec.proj r.key r.val) && decide (e.2 = r.id)) = true ↔
        decide (e.2 = r.id) = true) := by
    intro e he
    by_cases h2 : e.2 = r.id
    · have hx := expected_entry_of_ref hn hr he h2
      simp [hx]
    · simp [h2]
  rw [List.countP_congr hcongr]
  unfold expectedSec
  rw [List.countP_map]
  have hgoal : ((fun e : SKey × Nat => decide (e.2 = r.id)) ∘
      fun x : MRecord Key Payload => (spec.proj x.key x.val, x.id)) =
      fun x : MRecord Key Payload => decide (x.id = r.id) := by
    funext x
    simp [Function.comp]
  rw [hgoal]
  refine countP_id_eq_one ?_ ?_ rfl
  · exact hn.sublist ((List.filter_sublist _).map _)
  · exact List.mem_filter.mpr ⟨hr, by simp [hlive]⟩

/-- C1: in every state reachable by any sequence of operations, for every
live record `R` and every secondary index, that secondary map contains
exactly one entry whose sub-key equals the projection of `R` and whose
stored reference resolves to `R`, and every secondary entry references some
live record (no entry references a dead record). -/
theorem C1_secondary_coherence {cfg : MIConfig Key Payload SKey}
    {s : MIState Key Payload SKey} (h : Reachable cfg s) :
    List.Forall₂ (fun spec m =>
      (∀ r ∈ s.primary, r.dead = false →
        m.countP (fun e =>
          decide (e.1 = spec.proj r.key r.val) && decide (e.2 = r.id)) = 1) ∧
      (∀ e ∈ m, ∃ r ∈ s.primary, r.dead = false ∧ e.2 = r.id))
      cfg.specs s.secs := by
  have hInv := Inv_reachable h
  refine forall₂_imp_mem hInv.coh ?_
  rintro spec m _ ⟨hperm, hnod⟩
  constructor
  · intro r hr hlive
    rw [hperm.countP_eq]
    exact expected_countP_one hInv.ids_nodup hr hlive
  · intro e he
    obtain ⟨r, hr, hd, hre⟩ := mem_expectedSec.mp (hperm.subset he)
    exact ⟨r, hr, hd, by rw [hre]⟩

/-- C2: in every reachable state, `size()` equals the number of records
visible through `begin()..end()`; with tombstones the live counter equals the
number of non-dead records of the primary map, and without tombstones
`size()` is the primary map's own size. -/
theorem C2_size_live_count {cfg : MIConfig Key Payload SKey}
    {s : MIState Key Payload SKey} (h : Reachable cfg s) :
    size cfg s = (itList cfg s).length ∧
    (cfg.tombs = true →
      s.live = (s.primary.filter (fun r => !r.dead)).length) ∧
    (cfg.tombs = false → size cfg s = s.primary.length) := by
  have hInv := Inv_reachable h
  refine ⟨?_, hInv.live_eq, ?_⟩
  · unfold size itList
    cases ht : cfg.tombs
    · simp
    · simp only [if_true]
      exact hInv.live_eq ht
  · intro ht
    unfold size
    rw [ht]
    simp

/-! ### Helpers for the remaining claims -/

theorem resolveObs_of_mem {prim : List (MRecord Key Payload)}
    (hn : (prim.map (fun x => x.id)).Nodup) {r : MRecord Key Payload}
    (hr : r ∈ prim) : resolveObs prim r.id = some (r.key, r.val) := by
  obtain ⟨A, B, hprim, hA, hB⟩ := split_of_mem_nodup hr hn
  unfold resolveObs
  rw [hprim, find?_split (x := r) (fun a ha => by simpa using hA a ha) (by simp)]
  rfl

theorem head?_dropWhile_eq_head?_filter (p : α → Bool) (l : List α) :
    (l.dropWhile p).head? = (l.filter (fun x => !p x)).head? := by
  induction l with
  | nil => rfl
  | cons a l ih =>
    by_cases hp : p a = true
    · simp [List.dropWhile_cons, List.filter_cons, hp, ih]
    · have hp' : p a = false := by simpa using hp
      simp [List.dropWhile_cons, List.filter_cons, hp']

theorem addSecsTryAux_thrown_drop {k : Key} {v : Payload} {rid : Nat} :
    ∀ {t : Option Nat} {specs : List (SecSpec Key Payload SKey)}
      {ms : List (List (SKey × Nat))},
    specs.length = ms.length →
    (∀ m ∈ ms, ∀ e ∈ m, e.2 ≠ rid) →
    (addSecsTryAux k v rid t specs ms).2 = SecRes.thrown →
    dropSecsAux k v rid specs (addSecsTryAux k v rid t specs ms).1 = ms := by
  intro t specs
  induction specs generalizing t with
  | nil =>
    intro ms _ _ hthr
    simp [addSecsTryAux] at hthr
  | cons spec specs ih =>
    intro ms hlen hfresh hthr
    cases ms with
    | nil => simp at hlen
    | cons m ms =>
      have hmfresh : ∀ e ∈ m, e.2 ≠ rid := hfresh m (by simp)
      have htfresh : ∀ m' ∈ ms, ∀ e ∈ m', e.2 ≠ rid :=
        fun m' hm' => hfresh m' (List.mem_cons_of_mem _ hm')
      by_cases ht0 : t = some 0
      · have hm : eraseFirst (secMatch (spec.proj k v) rid) m = m :=
          eraseFirst_of_forall_not
            (fun e he => secMatch_false_of_ne_ref (hmfresh e he))
        have hdrop : dropSecsAux k v rid specs ms = ms :=
          dropSecsAux_of_not_ref htfresh (by simpa using hlen)
        simp [addSecsTryAux, ht0, dropSecsAux, hm, hdrop]
      · by_cases hcol : (spec.uniq && m.any fun e => decide (e.1 = spec.proj k v)) = true
        · simp [addSecsTryAux, ht0, hcol] at hthr
        · rcases hrec : addSecsTryAux k v rid (t.map (fun n => n - 1)) specs ms
            with ⟨tail, res⟩
          cases res with
          | ok b =>
            cases b <;> simp [addSecsTryAux, ht0, hcol, hrec] at hthr
          | thrown =>
            have htail := ih (t := t.map (fun n => n - 1))
              (by simpa using hlen) htfresh (by rw [hrec])
            rw [hrec] at htail
            simp only at htail
            have hm : eraseFirst (secMatch (spec.proj k v) rid)
                (m ++ [(spec.proj k v, rid)]) = m :=
              eraseFirst_concat
                (fun e he => secMatch_false_of_ne_ref (hmfresh e he))
                (secMatch_self _ _)
            simp [addSecsTryAux, ht0, hcol, hrec, dropSecsAux, hm, htail]

theorem insertNewTry_cases (cfg : MIConfig Key Payload SKey)
    (s : MIState Key Payload SKey) (k : Key) (v : Payload) (t : Option Nat) :
    insertNewTry cfg s k v t =
      (match addSecsTryAux k v s.nextId t cfg.specs s.secs with
       | (ms, .ok true) =>
         ({ primary := s.primary ++ [⟨s.nextId, k, v, false⟩], secs := ms,
            live := if cfg.tombs = true then s.live + 1 else s.live,
            nextId := s.nextId + 1 }, .ok true)
       | (ms, .ok false) =>
         ({ primary := s.primary, secs := ms, live := s.live,
            nextId := s.nextId + 1 }, .ok false)
       | (ms, .thrown) =>
         ({ primary := s.primary,
            secs := dropSecsAux k v s.nextId cfg.specs ms, live := s.live,
            nextId := s.nextId + 1 }, .thrown)) := by
  unfold insertNewTry AddSecsTry DropSecs IncrementLive
  rcases h : addSecsTryAux k v s.nextId t cfg.specs s.secs with ⟨ms, res⟩
  cases res with
  | ok b =>
    cases b
    · simp [h, List.dropLast_concat]
    · by_cases htt : cfg.tombs = true <;> simp [h, htt, List.dropLast_concat]
  | thrown => simp [h, List.dropLast_concat]

theorem insertNewTry_thrown {cfg : MIConfig Key Payload SKey}
    {s : MIState Key Payload SKey} {k : Key} {v : Payload} {t : Option Nat}
    (hInv : Inv cfg s)
    (hthr : (insertNewTry cfg s k v t).2 = SecRes.thrown) :
    (insertNewTry cfg s k v t).1 = { s with nextId := s.nextId + 1 } := by
  rw [insertNewTry_cases] at hthr ⊢
  rcases haux : addSecsTryAux k v s.nextId t cfg.specs s.secs with ⟨ms, res⟩
  rw [haux] at hthr
  cases res with
  | ok b => cases b <;> simp at hthr
  | thrown =>
    have hdrop := addSecsTryAux_thrown_drop (t := t) hInv.secs_len
      hInv.fresh_not_ref (by rw [haux])
    rw [haux] at hdrop
    simp only at hdrop
    simp only [hdrop]

theorem forall₂_perm_refl (ls : List (List (SKey × Nat))) :
    List.Forall₂ (fun m m' => m.Perm m') ls ls := by
  induction ls with
  | nil => exact List.Forall₂.nil
  | cons a l ih => exact List.Forall₂.cons (List.Perm.refl a) ih

theorem update_fail_restore {cfg : MIConfig Key Payload SKey}
    {s : MIState Key Payload SKey} (hInv : Inv cfg s) {rid : Nat}
    {r : MRecord Key Payload} (hr : lookupId s rid = some r)
    (mf : Payload → Payload)
    (hfail : (UpdateCore cfg s rid mf).2 = false) :
    (UpdateCore cfg s rid mf).1.primary = s.primary ∧
    (UpdateCore cfg s rid mf).1.live = s.live ∧
    List.Forall₂ (fun m m' => m.Perm m') s.secs
      (UpdateCore cfg s rid mf).1.secs := by
  have hrmem : r ∈ s.primary := List.mem_of_find?_eq_some hr
  have hid : r.id = rid := by simpa using List.find?_some hr
  subst hid
  obtain ⟨A, B, hprim, hA, hB⟩ := hInv.split hrmem
  by_cases hcase : cfg.tombs = true ∧ r.dead = true
  · obtain ⟨ht, hd⟩ := hcase
    rw [UpdateCore_dead_eq hprim hA hB ht hd mf] at hfail ⊢
    rcases haux : addSecsAux r.key (mf r.val) r.id cfg.specs s.secs
      with ⟨ms, ok⟩
    cases ok
    · have hms : ms = s.secs := by
        have h2 := addSecsAux_false_eq (k := r.key) (v := mf r.val)
          (hInv.dead_not_ref hrmem hd) (by rw [haux])
        rw [haux] at h2; simpa using h2
      subst hms
      exact ⟨by rw [← hprim], rfl, forall₂_perm_refl s.secs⟩
    · rw [haux] at hfail
      simp at hfail
  · have hof : cfg.tombs = true → r.dead = false := by
      intro ht
      by_cases hd : r.dead = true
      · exact absurd ⟨ht, hd⟩ hcase
      · simpa using hd
    have hlive : r.dead = false := by
      by_cases ht : cfg.tombs = true
      · exact hof ht
      · exact hInv.no_dead (by simpa using ht) r hrmem
    rw [UpdateCore_live_eq hprim hA hB hof mf] at hfail ⊢
    have hdrop := dropSecs_state hInv hprim hlive
    rcases haux : addSecsAux r.key (mf r.val) r.id cfg.specs
      (dropSecsAux r.key r.val r.id cfg.specs s.secs) with ⟨ms, ok⟩
    cases ok
    · have hdfresh : ∀ m ∈ dropSecsAux r.key r.val r.id cfg.specs s.secs,
          ∀ e ∈ m, e.2 ≠ r.id := by
        intro m hm e he
        obtain ⟨spec, _, _, _, hnr, _⟩ := forall₂_mem_right hdrop hm
        exact hnr e he
      have hms : ms = dropSecsAux r.key r.val r.id cfg.specs s.secs := by
        have h2 := addSecsAux_false_eq (k := r.key) (v := mf r.val)
          hdfresh (by rw [haux])
        rw [haux] at h2; simpa using h2
      subst hms
      have hreadd : (addSecsAux r.key r.val r.id cfg.specs
          (dropSecsAux r.key r.val r.id cfg.specs s.secs)).2 = true := by
        apply addSecsAux_true_of_nocollision
        refine forall₂_imp_mem hdrop ?_
        rintro spec m _ ⟨_, _, _, hfst⟩
        exact hfst
      have hres := addSecs_success_coherent r.key r.val r.id (A := A) (B := B)
        (forall₂_imp_mem hdrop (fun spec m _ hP => ⟨hP.1, hP.2.1⟩)) hreadd
      refine ⟨by rw [← hprim], rfl, ?_⟩
      have h1 : List.Forall₂ (fun spec m =>
          m.Perm (expectedSec spec s.primary)) cfg.specs s.secs :=
        forall₂_imp_mem hInv.coh (fun spec m _ hP => hP.1)
      have h2 : List.Forall₂ (fun spec m =>
          m.Perm (expectedSec spec s.primary)) cfg.specs
          (addSecsAux r.key r.val r.id cfg.specs
            (dropSecsAux r.key r.val r.id cfg.specs s.secs)).1 := by
        refine forall₂_imp_mem hres ?_
        rintro spec m _ ⟨hperm, _⟩
        rw [hprim, expectedSec_append, expectedSec_cons_live _ hlive]
        exact hperm
      exact forall₂_right_trans h1 h2
        (fun spec m m' hm hm' => hm.trans hm'.symm)
    · rw [haux] at hfail
      simp at hfail

/-- C3: for an emplace of a key not present in the primary, when a unique
secondary rejects its entry the already-written secondaries are rolled back,
the primary entry is erased and the call returns false with the observable
state (primary, secondaries, live counter) equal to the pre-call state; and
when a C++ exception escapes one of the secondary inserts (the `thrown`
outcome of the modelled fallible insert), the same full rollback happens
before the exception propagates. -/
theorem C3_emplace_rollback {cfg : MIConfig Key Payload SKey}
    {s : MIState Key Payload SKey} {k : Key} {v : Payload}
    (h : Reachable cfg s)
    (hnew : cfg.primUnique = true → ∀ r ∈ s.primary, r.key ≠ k) :
    ((emplace cfg s k v).2 = false →
      ((emplace cfg s k v).1.primary = s.primary ∧
       (emplace cfg s k v).1.secs = s.secs ∧
       (emplace cfg s k v).1.live = s.live)) ∧
    (∀ t, (insertNewTry cfg s k v t).2 = SecRes.thrown →
      ((insertNewTry cfg s k v t).1.primary = s.primary ∧
       (insertNewTry cfg s k v t).1.secs = s.secs ∧
       (insertNewTry cfg s k v t).1.live = s.live)) := by
  have hInv := Inv_reachable h
  have hstep : emplace cfg s k v = insertNew cfg s k v := by
    unfold emplace
    by_cases hpu : cfg.primUnique = true
    · have hfind : s.primary.find? (fun r => decide (r.key = k)) = none := by
        apply find?_none_split
        intro r hr
        simpa using hnew hpu r hr
      rw [hpu, hfind]
      simp
    · have hpu2 : cfg.primUnique = false := by simpa using hpu
      rw [hpu2]
      simp
  constructor
  · intro hfail
    rw [hstep] at hfail ⊢
    rw [insertNew_false_eq hInv hfail]
    exact ⟨rfl, rfl, rfl⟩
  · intro t hthr
    rw [insertNewTry_thrown hInv hthr]
    exact ⟨rfl, rfl, rfl⟩

/-- C4: when `modify` (UpdateCore) or `replace` on a valid record returns
false because a unique secondary rejected the rebuilt entry, the record's
payload and tombstone flag are restored (the whole primary equals its
pre-call state), the live counter is unchanged and every secondary map holds
exactly its pre-call entries. -/
theorem C4_update_atomicity {cfg : MIConfig Key Payload SKey}
    {s : MIState Key Payload SKey} (h : Reachable cfg s) {rid : Nat}
    {r : MRecord Key Payload} (hr : lookupId s rid = some r) :
    (∀ mf, (UpdateCore cfg s rid mf).2 = false →
      ((UpdateCore cfg s rid mf).1.primary = s.primary ∧
       (UpdateCore cfg s rid mf).1.live = s.live ∧
       List.Forall₂ (fun m m' => m.Perm m') s.secs
         (UpdateCore cfg s rid mf).1.secs)) ∧
    (∀ v, (Replace cfg s rid v).2 = false →
      ((Replace cfg s rid v).1.primary = s.primary ∧
       (Replace cfg s rid v).1.live = s.live ∧
       List.Forall₂ (fun m m' => m.Perm m') s.secs
         (Replace cfg s rid v).1.secs)) := by
  have hInv := Inv_reachable h
  constructor
  · intro mf hfail
    exact update_fail_restore hInv hr mf hfail
  · intro v hfail
    have hrepl : Replace cfg s rid v =
        (if (!(cfg.tombs && r.dead) && decide (r.val = v)) = true then (s, true)
         else UpdateCore cfg s rid (fun _ => v)) := by
      unfold Replace
      rw [hr]
    rw [hrepl] at hfail ⊢
    by_cases hc : (!(cfg.tombs && r.dead) && decide (r.val = v)) = true
    · rw [if_pos hc] at hfail
      simp at hfail
    · rw [if_neg hc] at hfail ⊢
      exact update_fail_restore hInv hr _ hfail

/-- C5: with tombstones enabled, `find(k)` returns the first live record of
the equal-range of `k` (and `none` when that range holds no live entry): with
a unique primary a dead sole entry reports the key absent, with a multi
primary the scan skips forward past dead entries. -/
theorem C5_find_tombstones {cfg : MIConfig Key Payload SKey}
    {s : MIState Key Payload SKey} (h : Reachable cfg s)
    (ht : cfg.tombs = true) (k : Key) :
    find cfg s k =
      (s.primary.filter (fun r => decide (r.key = k) && !r.dead)).head? := by
  have hInv := Inv_reachable h
  have hff : (s.primary.filter (fun r => decide (r.key = k))).filter
      (fun r => !r.dead) =
      s.primary.filter (fun r => decide (r.key = k) && !r.dead) := by
    rw [List.filter_filter]
    apply List.filter_congr
    intro r _
    exact Bool.and_comm _ _
  unfold find
  rw [if_pos ht]
  cases hr : s.primary.filter (fun r => decide (r.key = k)) with
  | nil =>
    rw [← hff, hr]
    rfl
  | cons r rs =>
    by_cases hd : r.dead = true
    · simp only [hd, if_true]
      by_cases hpu : cfg.primUnique = true
      · rw [if_pos hpu]
        have hsub : ((s.primary.filter
            (fun r => decide (r.key = k))).map (fun r => r.key)).Nodup :=
          (hInv.keys_nodup hpu).sublist ((List.filter_sublist _).map _)
        rw [hr] at hsub
        have hkeys : ∀ x ∈ s.primary.filter (fun r => decide (r.key = k)),
            x.key = k := by
          intro x hx
          simpa using List.of_mem_filter hx
        cases rs with
        | nil =>
          rw [← hff, hr]
          simp [List.filter_cons, hd]
        | cons r2 rs2 =>
          exfalso
          have h1 : r.key = k := hkeys r (by rw [hr]; simp)
          have h2 : r2.key = k := hkeys r2 (by rw [hr]; simp)
          simp [h1, h2] at hsub
      · rw [if_neg hpu, ← hff, hr]
        unfold SkipDead
        exact head?_dropWhile_eq_head?_filter _ _
    · have hd2 : r.dead = false := by simpa using hd
      simp only [hd2, Bool.false_eq_true, if_false]
      rw [← hff, hr, List.filter_cons]
      simp [hd2]

/-- C6: with a tombstoned unique primary, emplacing a key whose sole record
is dead revives in place: on success the record keeps its identity with the
new payload and a cleared flag, the physical primary size is unchanged, the
live counter and `size()` go up by one, and each secondary gains the revived
entry; on unique-secondary rejection the flag is re-set, the secondaries,
live counter and `size()` are unchanged and false is returned. -/
theorem C6_revival {cfg : MIConfig Key Payload SKey}
    {s : MIState Key Payload SKey} (h : Reachable cfg s)
    (hpu : cfg.primUnique = true) (ht : cfg.tombs = true) {k : Key}
    {v : Payload} {r0 : MRecord Key Payload}
    (hf : s.primary.find? (fun r => decide (r.key = k)) = some r0)
    (hd : r0.dead = true) :
    ((emplace cfg s k v).2 = true →
      (lookupId (emplace cfg s k v).1 r0.id =
        some ⟨r0.id, r0.key, v, false⟩ ∧
       (emplace cfg s k v).1.primary.length = s.primary.length ∧
       (emplace cfg s k v).1.live = s.live + 1 ∧
       size cfg (emplace cfg s k v).1 = size cfg s + 1 ∧
       List.Forall₂ (fun spec mm => mm.2 = mm.1 ++ [(spec.proj r0.key v, r0.id)])
         cfg.specs (s.secs.zip (emplace cfg s k v).1.secs))) ∧
    ((emplace cfg s k v).2 = false →
      (lookupId (emplace cfg s k v).1 r0.id =
        some ⟨r0.id, r0.key, v, true⟩ ∧
       (emplace cfg s k v).1.secs = s.secs ∧
       (emplace cfg s k v).1.primary.length = s.primary.length ∧
       (emplace cfg s k v).1.live = s.live ∧
       size cfg (emplace cfg s k v).1 = size cfg s)) := by
  have hInv := Inv_reachable h
  have hmem : r0 ∈ s.primary := List.mem_of_find?_eq_some hf
  obtain ⟨A, B, hprim, hA, hB⟩ := split_of_mem_nodup hmem hInv.ids_nodup
  rw [emplace_revive_eq hpu ht hf hd hprim hA hB]
  rcases haux : addSecsAux r0.key v r0.id cfg.specs s.secs with ⟨ms, ok⟩
  cases ok
  · have hms : ms = s.secs := by
      have h2 := addSecsAux_false_eq (k := r0.key) (v := v)
        (hInv.dead_not_ref hmem hd) (by rw [haux])
      rw [haux] at h2
      simpa using h2
    subst hms
    constructor
    · intro hcon
      cases hcon
    · intro _
      refine ⟨?_, rfl, by simp [hprim], rfl, by simp [size, ht]⟩
      exact lookupId_split (r := (⟨r0.id, r0.key, v, true⟩ : MRecord Key Payload))
        rfl hA
  · constructor
    · intro _
      have hms : ms = List.zipWith
          (fun spec m => m ++ [(spec.proj r0.key v, r0.id)]) cfg.specs s.secs := by
        have h2 := addSecsAux_true_eq r0.key v r0.id hInv.secs_len (by rw [haux])
        rw [haux] at h2
        simpa using h2
      refine ⟨?_, by simp [hprim], rfl, by simp [size, ht], ?_⟩
      · exact lookupId_split
          (r := (⟨r0.id, r0.key, v, false⟩ : MRecord Key Payload)) rfl hA
      · rw [hms]
        exact forall₂_zip_zipWith hInv.secs_len (fun a b => rfl)
    · intro hcon
      cases hcon

theorem secObs_expected {spec : SecSpec Key Payload SKey}
    {prim : List (MRecord Key Payload)}
    (hn : (prim.map (fun r => r.id)).Nodup) :
    secObs prim (expectedSec spec prim) =
      (prim.filter (fun r => !r.dead)).map
        (fun r => (spec.proj r.key r.val, some (r.key, r.val))) := by
  unfold secObs expectedSec
  rw [List.map_map]
  apply List.map_congr_left
  intro r hr
  have hmem : r ∈ prim := List.mem_of_mem_filter hr
  simp [Function.comp, resolveObs_of_mem hn hmem]

theorem forall₂_zip_pair {β γ : Type} {P Q : β → γ → Prop} {as : List β}
    {bs cs : List γ} (h1 : List.Forall₂ P as bs)
    (h2 : List.Forall₂ Q as cs) :
    List.Forall₂ (fun a p => P a p.1 ∧ Q a p.2) as (bs.zip cs) := by
  induction h1 generalizing cs with
  | nil =>
    cases h2
    exact List.Forall₂.nil
  | cons hab h ih =>
    cases h2 with
    | cons hac h2t => exact List.Forall₂.cons ⟨hab, hac⟩ (ih h2t)

/-- C7: `compact()` rebuilds the container from its live records: afterwards
every record is live, the (key, payload) content equals the pre-call live
content in order, the physical primary size equals `size()`, `size()` is
unchanged, and every secondary map holds (up to ordering) the same
observable (sub-key, resolved record) entries as before. -/
theorem C7_compact {cfg : MIConfig Key Payload SKey}
    {s : MIState Key Payload SKey} (h : Reachable cfg s) :
    ((compact cfg s).primary.map (fun r => (r.key, r.val)) = livePairs cfg s) ∧
    (∀ r ∈ (compact cfg s).primary, r.dead = false) ∧
    ((compact cfg s).primary.length = size cfg (compact cfg s)) ∧
    (size cfg (compact cfg s) = size cfg s) ∧
    List.Forall₂ (fun spec p => (secObs (compact cfg s).primary p.2).Perm
        (secObs s.primary p.1)) cfg.specs (s.secs.zip (compact cfg s).secs) := by
  have hInv := Inv_reachable h
  obtain ⟨hi, hl, hp⟩ := compact_spec hInv
  have hfl : (compact cfg s).primary.filter (fun r => !r.dead) =
      (compact cfg s).primary := by
    rw [List.filter_eq_self]
    intro r hr
    simp [hl r hr]
  have hlen : (compact cfg s).primary.length = (livePairs cfg s).length := by
    have h2 := congrArg List.length hp
    simpa using h2
  have hlps : (livePairs cfg s).length =
      (s.primary.filter (fun r => !r.dead)).length := by
    rw [livePairs_eq_filter_live hInv]
    simp
  have hsizec : (compact cfg s).primary.length = size cfg (compact cfg s) := by
    unfold size
    cases ht : cfg.tombs
    · simp
    · rw [if_pos rfl, hi.live_eq ht, hfl]
  have hsizes : size cfg (compact cfg s) = size cfg s := by
    rw [← hsizec]
    unfold size
    cases ht : cfg.tombs
    · rw [if_neg (by simp), hlen, hlps]
      have hnd := hInv.no_dead ht
      have h2 : s.primary.filter (fun r => !r.dead) = s.primary := by
        rw [List.filter_eq_self]
        intro r hr
        simp [hnd r hr]
      rw [h2]
    · rw [if_pos rfl, hInv.live_eq ht, hlen, hlps]
  refine ⟨hp, hl, hsizec, hsizes, ?_⟩
  have hcomb := forall₂_zip_pair hInv.coh hi.coh
  refine forall₂_imp_mem hcomb ?_
  rintro spec p _ ⟨⟨hps, _⟩, ⟨hpc, _⟩⟩
  have h1 : (secObs s.primary p.1).Perm
      (secObs s.primary (expectedSec spec s.primary)) := hps.map _
  have h2 : (secObs (compact cfg s).primary p.2).Perm
      (secObs (compact cfg s).primary
        (expectedSec spec (compact cfg s).primary)) := hpc.map _
  have h3 : secObs s.primary (expectedSec spec s.primary) =
      (s.primary.filter (fun r => !r.dead)).map
        (fun r => (spec.proj r.key r.val, some (r.key, r.val))) :=
    secObs_expected hInv.ids_nodup
  have h4 : secObs (compact cfg s).primary
      (expectedSec spec (compact cfg s).primary) =
      (s.primary.filter (fun r => !r.dead)).map
        (fun r => (spec.proj r.key r.val, some (r.key, r.val))) := by
    rw [secObs_expected hi.ids_nodup, hfl]
    have h5 : (compact cfg s).primary.map
        (fun r => (spec.proj r.key r.val, some (r.key, r.val))) =
        ((compact cfg s).primary.map (fun r => (r.key, r.val))).map
          (fun q => (spec.proj q.1 q.2, some q)) := by
      rw [List.map_map]
      rfl
    rw [h5, hp, livePairs_eq_filter_live hInv, List.map_map]
    rfl
  rw [h3] at h1
  rw [h4] at h2
  exact h2.trans h1.symm

theorem livePairs_keys_nodup {cfg : MIConfig Key Payload SKey}
    {s : MIState Key Payload SKey} (hInv : Inv cfg s)
    (hpu : cfg.primUnique = true) :
    ((livePairs cfg s).map Prod.fst).Nodup := by
  rw [livePairs_eq_filter_live hInv, List.map_map]
  have h2 : ((s.primary.filter (fun r => !r.dead)).map
      (Prod.fst ∘ fun r => (r.key, r.val))) =
      (s.primary.filter (fun r => !r.dead)).map (fun r => r.key) := by
    simp [Function.comp]
  rw [h2]
  exact (hInv.keys_nodup hpu).sublist ((List.filter_sublist _).map _)

theorem livePairs_proj_nodup {cfg : MIConfig Key Payload SKey}
    {s : MIState Key Payload SKey} (hInv : Inv cfg s)
    {spec : SecSpec Key Payload SKey} (hspec : spec ∈ cfg.specs)
    (hu : spec.uniq = true) :
    ((livePairs cfg s).map (fun p => spec.proj p.1 p.2)).Nodup := by
  rw [livePairs_eq_filter_live hInv, List.map_map]
  have h2 : ((s.primary.filter (fun r => !r.dead)).map
      ((fun p => spec.proj p.1 p.2) ∘ fun r => (r.key, r.val))) =
      (expectedSec spec s.primary).map Prod.fst := by
    simp [expectedSec, List.map_map, Function.comp]
  rw [h2]
  obtain ⟨m, _, hperm, hnod⟩ := forall₂_mem_left hInv.coh hspec
  exact ((hperm.map Prod.fst).nodup_iff).mp (hnod hu)

theorem livePairs_length_size {cfg : MIConfig Key Payload SKey}
    {s : MIState Key Payload SKey} (hInv : Inv cfg s) :
    (livePairs cfg s).length = size cfg s := by
  rw [livePairs_eq_filter_live hInv]
  unfold size
  cases ht : cfg.tombs
  · rw [if_neg (by simp)]
    have h2 : s.primary.filter (fun r => !r.dead) = s.primary := by
      rw [List.filter_eq_self]
      intro r hr
      simp [hInv.no_dead ht r hr]
    rw [h2]
    simp
  · rw [if_pos rfl, hInv.live_eq ht]
    simp

/-- C8: `replace(iter, v)` on a live record whose payload already equals `v`
short-circuits: it returns true and the whole state is unchanged. -/
theorem C8_replace_noop {cfg : MIConfig Key Payload SKey}
    {s : MIState Key Payload SKey} {rid : Nat} {r : MRecord Key Payload}
    (hr : lookupId s rid = some r) (hlive : (cfg.tombs && r.dead) = false)
    {v : Payload} (hv : r.val = v) :
    Replace cfg s rid v = (s, true) := by
  unfold Replace
  rw [hr]
  simp [hlive, hv]

/-- C9: `erase(k)` removes every live entry of the equal-range of `k` and
returns their number; when no live record with key `k` exists the count is 0
and the state is unchanged. -/
theorem C9_erase_key {cfg : MIConfig Key Payload SKey}
    {s : MIState Key Payload SKey} (h : Reachable cfg s) (k : Key) :
    ((eraseKey cfg s k).2 =
      (s.primary.filter (fun r => decide (r.key = k) && !r.dead)).length) ∧
    (s.primary.filter (fun r => decide (r.key = k) && !r.dead) = [] →
      (eraseKey cfg s k).1 = s) := by
  have hInv := Inv_reachable h
  rcases hts : s.primary.filter (fun r => decide (r.key = k) && !r.dead)
    with _ | ⟨r, rest⟩
  · constructor
    · by_cases hpu : cfg.primUnique = true <;> simp [eraseKey, hts, hpu]
    · intro _
      by_cases hpu : cfg.primUnique = true <;> simp [eraseKey, hts, hpu]
  · by_cases hpu : cfg.primUnique = true
    · have hkeys : ∀ x ∈ s.primary.filter
          (fun r => decide (r.key = k) && !r.dead), x.key = k := by
        intro x hx
        have h2 := List.of_mem_filter hx
        simp at h2
        exact h2.1
      have hsub : ((s.primary.filter
          (fun r => decide (r.key = k) && !r.dead)).map
            (fun r => r.key)).Nodup :=
        (hInv.keys_nodup hpu).sublist ((List.filter_sublist _).map _)
      rw [hts] at hsub
      have hrest : rest = [] := by
        cases rest with
        | nil => rfl
        | cons r2 rs2 =>
          exfalso
          have h1 : r.key = k := hkeys r (by rw [hts]; simp)
          have h2 : r2.key = k := hkeys r2 (by rw [hts]; simp)
          simp [h1, h2] at hsub
      subst hrest
      refine ⟨by simp [eraseKey, hts, hpu], ?_⟩
      intro habs
      rw [hts] at habs
      cases habs
    · refine ⟨by simp [eraseKey, hts, hpu], ?_⟩
      intro habs
      rw [hts] at habs
      cases habs

/-- C10: under an invalidating policy the copy constructor and copy
assignment re-emplace only the source's live records: the copy holds no dead
record, its (key, payload) content is exactly the source's live content in
order, and its physical primary size equals the source's `size()`. -/
theorem C10_invalidating_copy {cfg : MIConfig Key Payload SKey}
    {src dst : MIState Key Payload SKey} (h : Reachable cfg src)
    (hd : Reachable cfg dst) :
    ((∀ r ∈ (copyCtorInv cfg src).primary, r.dead = false) ∧
     (copyCtorInv cfg src).primary.map (fun r => (r.key, r.val)) =
       livePairs cfg src ∧
     (copyCtorInv cfg src).primary.length = size cfg src) ∧
    ((∀ r ∈ (copyAssignCore cfg dst src).primary, r.dead = false) ∧
     (copyAssignCore cfg dst src).primary.map (fun r => (r.key, r.val)) =
       livePairs cfg src ∧
     (copyAssignCore cfg dst src).primary.length = size cfg src) := by
  have hInv := Inv_reachable h
  have hInvD := Inv_reachable hd
  have hlsz := livePairs_length_size hInv
  constructor
  · obtain ⟨hi, hl, hp⟩ := compact_spec hInv
    refine ⟨hl, hp, ?_⟩
    have h2 := congrArg List.length hp
    simpa [hlsz] using h2
  · obtain ⟨hi, hl, hp⟩ := buildFrom_spec (livePairs cfg src)
      (clearOp cfg dst) (Inv_clear hInvD)
      (by simp [clearOp])
      (by
        intro hpu
        simp only [clearOp, List.map_nil, List.nil_append]
        exact livePairs_keys_nodup hInv hpu)
      (by
        intro spec hspec hu
        simp only [clearOp, List.map_nil, List.nil_append]
        exact livePairs_proj_nodup hInv hspec hu)
    have hp2 : (copyAssignCore cfg dst src).primary.map
        (fun r => (r.key, r.val)) = livePairs cfg src := by
      rw [show copyAssignCore cfg dst src =
        buildFrom cfg (livePairs cfg src) (clearOp cfg dst) from rfl, hp]
      simp [clearOp]
    refine ⟨hl, hp2, ?_⟩
    have h2 := congrArg List.length hp2
    simpa [hlsz] using h2

/-! ### Concrete executions of the claims -/

theorem reach_st1 : Reachable cfg1 st1 :=
  Relation.ReflTransGen.single (Step.stepEmplace (emptyState cfg1) 1 5)

theorem reach_st2 : Reachable cfg1 st2 :=
  reach_st1.tail (Step.stepEraseIter st1 0)

theorem reach_st3 : Reachable cfg1 st3 :=
  reach_st1.tail (Step.stepEmplace st1 2 6)

theorem C1_witness :
    List.Forall₂ (fun spec m =>
      (∀ r ∈ st1.primary, r.dead = false →
        m.countP (fun e =>
          decide (e.1 = spec.proj r.key r.val) && decide (e.2 = r.id)) = 1) ∧
      (∀ e ∈ m, ∃ r ∈ st1.primary, r.dead = false ∧ e.2 = r.id))
      cfg1.specs st1.secs :=
  C1_secondary_coherence reach_st1

theorem C2_witness :
    size cfg1 st1 = (itList cfg1 st1).length ∧
    (cfg1.tombs = true →
      st1.live = (st1.primary.filter (fun r => !r.dead)).length) ∧
    (cfg1.tombs = false → size cfg1 st1 = st1.primary.length) :=
  C2_size_live_count reach_st1

theorem C3_witness :
    ((emplace cfg1 st1 2 5).1.primary = st1.primary ∧
     (emplace cfg1 st1 2 5).1.secs = st1.secs ∧
     (emplace cfg1 st1 2 5).1.live = st1.live) ∧
    ((insertNewTry cfg1 st1 2 5 (some 0)).1.primary = st1.primary ∧
     (insertNewTry cfg1 st1 2 5 (some 0)).1.secs = st1.secs ∧
     (insertNewTry cfg1 st1 2 5 (some 0)).1.live = st1.live) :=
  ⟨(C3_emplace_rollback reach_st1 (by decide)).1 (by decide),
   (C3_emplace_rollback reach_st1 (by decide)).2 (some 0) (by decide)⟩

theorem C4_witness :
    (UpdateCore cfg1 st3 1 (fun _ => 5)).1.primary = st3.primary ∧
    (UpdateCore cfg1 st3 1 (fun _ => 5)).1.live = st3.live ∧
    List.Forall₂ (fun m m' => m.Perm m') st3.secs
      (UpdateCore cfg1 st3 1 (fun _ => 5)).1.secs :=
  (C4_update_atomicity reach_st3
      (by decide : lookupId st3 1 = some ⟨1, 2, 6, false⟩)).1
    (fun _ => 5) (by decide)

theorem C5_witness :
    find cfg1 st2 1 =
      (st2.primary.filter (fun r => decide (r.key = 1) && !r.dead)).head? :=
  C5_find_tombstones reach_st2 rfl 1

theorem C6_witness :
    lookupId (emplace cfg1 st2 1 7).1 0 = some ⟨0, 1, 7, false⟩ ∧
    (emplace cfg1 st2 1 7).1.primary.length = st2.primary.length ∧
    (emplace cfg1 st2 1 7).1.live = st2.live + 1 ∧
    size cfg1 (emplace cfg1 st2 1 7).1 = size cfg1 st2 + 1 ∧
    List.Forall₂ (fun spec mm => mm.2 = mm.1 ++ [(spec.proj 1 7, 0)])
      cfg1.specs (st2.secs.zip (emplace cfg1 st2 1 7).1.secs) :=
  (C6_revival reach_st2 rfl rfl
      (by decide : st2.primary.find? (fun r => decide (r.key = 1)) =
        some ⟨0, 1, 5, true⟩) rfl).1 (by decide)

theorem C7_witness :
    ((compact cfg1 st2).primary.map (fun r => (r.key, r.val)) =
      livePairs cfg1 st2) ∧
    (∀ r ∈ (compact cfg1 st2).primary, r.dead = false) ∧
    ((compact cfg1 st2).primary.length = size cfg1 (compact cfg1 st2)) ∧
    (size cfg1 (compact cfg1 st2) = size cfg1 st2) ∧
    List.Forall₂ (fun spec p => (secObs (compact cfg1 st2).primary p.2).Perm
        (secObs st2.primary p.1)) cfg1.specs
      (st2.secs.zip (compact cfg1 st2).secs) :=
  C7_compact reach_st2

theorem C8_witness : Replace cfg1 st1 0 5 = (st1, true) :=
  C8_replace_noop (by decide : lookupId st1 0 = some ⟨0, 1, 5, false⟩)
    (by decide :
      (cfg1.tombs && (⟨0, 1, 5, false⟩ : MRecord Nat Nat).dead) = false)
    (by decide : (⟨0, 1, 5, false⟩ : MRecord Nat Nat).val = 5)

theorem C9_witness :
    (eraseKey cfg1 st2 1).2 = 0 ∧ (eraseKey cfg1 st2 1).1 = st2 :=
  ⟨(C9_erase_key reach_st2 1).1, (C9_erase_key reach_st2 1).2 (by decide)⟩

theorem C10_witness :
    ((∀ r ∈ (copyCtorInv cfg1 st2).primary, r.dead = false) ∧
     (copyCtorInv cfg1 st2).primary.map (fun r => (r.key, r.val)) =
       livePairs cfg1 st2 ∧
     (copyCtorInv cfg1 st2).primary.length = size cfg1 st2) ∧
    ((∀ r ∈ (copyAssignCore cfg1 st1 st2).primary, r.dead = false) ∧
     (copyAssignCore cfg1 st1 st2).primary.map (fun r => (r.key, r.val)) =
       livePairs cfg1 st2 ∧
     (copyAssignCore cfg1 st1 st2).primary.length = size cfg1 st2) :=
  C10_invalidating_copy reach_st2 reach_st1

end MultiIndex
